import Mathlib

/-!
Verification of the EVENT repository's core algorithms against its
specification.  Each Python function under `src/services` that a claim
touches is embedded shallowly below: pure float arithmetic becomes exact
real (`ℝ`) or rational (`ℚ`) arithmetic, Python `None` becomes `Option`,
raising code returns `Option`, and the Celery/DB scheduler task becomes a
pure state-passing function.  Theorems about the claims follow the
definitions.
-/

namespace Event

/-! ## Waypoints (services/api/app/algorithms.py, `Waypoint`) -/

/-- Waypoint dataclass: lat/lon/alt plus optional metadata, defaults as in
the source (`alt=100.0`, `speed=15.0`, `heading=None`, `action=None`). -/
structure Waypoint where
  lat : ℝ
  lon : ℝ
  alt : ℝ := 100.0
  speed : ℝ := 15.0
  heading : Option ℝ := none
  action : Option String := none

/-- Python `int()` truncation toward zero on a real argument. -/
noncomputable def pyInt (x : ℝ) : ℤ := if 0 ≤ x then ⌊x⌋ else ⌈x⌉

/-! ## Coverage patterns (services/api/app/algorithms.py,
`CoveragePatternGenerator`) -/

/-- `generate_lawnmower`: boustrophedon passes.  `num_passes =
int(height_m / spacing_m) + 1`; pass `i` contributes two endpoint
waypoints whose x extremes alternate with the parity of `i`. -/
noncomputable def generate_lawnmower (center_lat center_lon width_m height_m
    spacing_m altitude_m : ℝ) : List Waypoint :=
  let num_passes : ℤ := pyInt (height_m / spacing_m) + 1
  let meters_per_degree_lat : ℝ := 111320.0
  let meters_per_degree_lon : ℝ :=
    111320.0 * Real.cos (center_lat * Real.pi / 180)
  (List.range num_passes.toNat).flatMap (fun i =>
    let y_offset : ℝ := -height_m / 2 + (i : ℝ) * spacing_m
    let xse : ℝ × ℝ :=
      if i % 2 = 0 then (-width_m / 2, width_m / 2)
      else (width_m / 2, -width_m / 2)
    let lat_offset := y_offset / meters_per_degree_lat
    [{ lat := center_lat + lat_offset,
       lon := center_lon + xse.1 / meters_per_degree_lon,
       alt := altitude_m },
     { lat := center_lat + lat_offset,
       lon := center_lon + xse.2 / meters_per_degree_lon,
       alt := altitude_m }])

/-- `generate_sector_scan`: radial out-and-back legs.  The angular step is
`(end_angle_deg - start_angle_deg) / (num_radials - 1)`, so `num_radials = 1`
raises `ZeroDivisionError` in Python; that failure is embedded as `none`. -/
noncomputable def generate_sector_scan (center_lat center_lon radius_m
    start_angle_deg end_angle_deg : ℝ) (num_radials : ℤ)
    (altitude_m : ℝ) : Option (List Waypoint) :=
  if num_radials = 1 then none else
  let meters_per_degree_lat : ℝ := 111320.0
  let meters_per_degree_lon : ℝ :=
    111320.0 * Real.cos (center_lat * Real.pi / 180)
  let angle_step : ℝ :=
    (end_angle_deg - start_angle_deg) / ((num_radials : ℝ) - 1)
  some ((List.range num_radials.toNat).flatMap (fun i =>
    let angle := start_angle_deg + (i : ℝ) * angle_step
    let angle_rad := angle * Real.pi / 180
    let x := radius_m * Real.cos angle_rad
    let y := radius_m * Real.sin angle_rad
    [{ lat := center_lat, lon := center_lon, alt := altitude_m },
     { lat := center_lat + y / meters_per_degree_lat,
       lon := center_lon + x / meters_per_degree_lon,
       alt := altitude_m }]))

/-! ## Telemetry ingestion (services/api/app/mqtt_client.py) -/

/-- UAV row of the registry (scheduler/app/models.py `UAV`): nullable
position columns, battery, status. -/
structure UAV where
  id : ℕ
  name : String
  status : String
  battery_level : ℚ
  current_latitude : Option ℚ
  current_longitude : Option ℚ
deriving DecidableEq

/-- Telemetry payload shape on `uav/<id>/telemetry` (spec §6). -/
structure TelemetryPayload where
  uav_id : ℕ
  latitude : ℚ
  longitude : ℚ
  battery : ℚ
  timestamp : ℕ

/-- `MQTTClient.handle_telemetry`: the body is `pass`; no registry record
is read or written, so the embedding returns the registry unchanged. -/
def handle_telemetry (registry : List UAV) (_topic : String)
    (_payload : TelemetryPayload) : List UAV :=
  registry

/-! ## Kalman filter (services/api/app/algorithms.py, `KalmanFilter`)

Matrices are embedded as row lists of rationals: every constant of the
source (`dt`, `q = 0.1`, `r = 0.5`, `P ← 10·I`) is an exact rational, so
the whole predict/update cycle is exact rational arithmetic. -/

/-- Matrix as a list of rows. -/
abbrev Mat : Type := List (List ℚ)

/-- Dot product of two equal-length vectors. -/
def dotQ (u v : List ℚ) : ℚ := (List.zipWith (· * ·) u v).sum

/-- Transpose (rows of the result are columns of the argument). -/
def transposeQ (A : Mat) : Mat :=
  match A with
  | [] => []
  | r :: _ => (List.range r.length).map (fun j => A.map (fun row => row.getD j 0))

/-- Matrix product. -/
def matMul (A B : Mat) : Mat :=
  A.map (fun row => (transposeQ B).map (fun col => dotQ row col))

/-- Entrywise sum. -/
def matAdd (A B : Mat) : Mat := List.zipWith (List.zipWith (· + ·)) A B

/-- Entrywise difference. -/
def matSub (A B : Mat) : Mat := List.zipWith (List.zipWith (· - ·)) A B

/-- Identity matrix of size n. -/
def eyeQ (n : ℕ) : Mat :=
  (List.range n).map (fun i => (List.range n).map (fun j => if i = j then 1 else 0))

/-- Scalar multiple. -/
def matSmul (c : ℚ) (A : Mat) : Mat := A.map (List.map (c * ·))

/-- Inverse of a 2×2 matrix (`np.linalg.inv` on the 2×2 innovation
covariance): adjugate over determinant. -/
def inv2 (S : Mat) : Mat :=
  match S with
  | [[a, b], [c, d]] =>
    let det := a * d - b * c
    [[d / det, -b / det], [-c / det, a / det]]
  | _ => S

/-- State transition matrix `F` (constant velocity, step `dt`). -/
def kfF (dt : ℚ) : Mat :=
  [[1, 0, dt, 0], [0, 1, 0, dt], [0, 0, 1, 0], [0, 0, 0, 1]]

/-- Measurement matrix `H` (observe position only). -/
def kfH : Mat := [[1, 0, 0, 0], [0, 1, 0, 0]]

/-- Process noise covariance `Q` with intensity `q = 0.1`. -/
def kfQ (dt : ℚ) : Mat :=
  let q : ℚ := 1 / 10
  [[q * dt ^ 4 / 4, 0, q * dt ^ 3 / 2, 0],
   [0, q * dt ^ 4 / 4, 0, q * dt ^ 3 / 2],
   [q * dt ^ 3 / 2, 0, q * dt ^ 2, 0],
   [0, q * dt ^ 3 / 2, 0, q * dt ^ 2]]

/-- Measurement noise covariance `R` with variance `r = 0.5`. -/
def kfR : Mat := [[1 / 2, 0], [0, 1 / 2]]

/-- Filter state: `x` is `None` before the first measurement. -/
structure KalmanFilter where
  dt : ℚ
  x : Option (List ℚ)
  P : Mat

/-- Fresh filter (`__init__`): no state yet. -/
def KalmanFilter.mk0 (dt : ℚ) : KalmanFilter := ⟨dt, none, []⟩

/-- `initialize`: state from the first measurement, `P ← 10·I`. -/
def KalmanFilter.initialize (kf : KalmanFilter) (z : ℚ × ℚ) : KalmanFilter :=
  { kf with x := some [z.1, z.2, 0, 0], P := matSmul 10 (eyeQ 4) }

/-- `predict`: `s ← F·s`, `P ← F·P·Fᵀ + Q`; a no-op before initialisation. -/
def KalmanFilter.predict (kf : KalmanFilter) : KalmanFilter :=
  match kf.x with
  | none => kf
  | some x =>
    let F := kfF kf.dt
    { kf with
      x := some ((matMul F (x.map ([·]))).map (fun r => r.getD 0 0)),
      P := matAdd (matMul (matMul F kf.P) (transposeQ F)) (kfQ kf.dt) }

/-- `update`: innovation, gain, state and covariance update; initialises on
the first measurement. -/
def KalmanFilter.update (kf : KalmanFilter) (z : ℚ × ℚ) : KalmanFilter :=
  match kf.x with
  | none => kf.initialize z
  | some x =>
    let xc : Mat := x.map ([·])
    let zc : Mat := [[z.1], [z.2]]
    let y := matSub zc (matMul kfH xc)
    let S := matAdd (matMul (matMul kfH kf.P) (transposeQ kfH)) kfR
    let K := matMul (matMul kf.P (transposeQ kfH)) (inv2 S)
    let x2 := matAdd xc (matMul K y)
    let P2 := matMul (matSub (eyeQ 4) (matMul K kfH)) kf.P
    { kf with x := some (x2.map (fun r => r.getD 0 0)), P := P2 }

/-- One predict/update cycle per measurement. -/
def KalmanFilter.step (kf : KalmanFilter) (z : ℚ × ℚ) : KalmanFilter :=
  (kf.predict).update z

/-- Feed a measurement sequence through predict/update cycles. -/
def KalmanFilter.run (kf : KalmanFilter) (zs : List (ℚ × ℚ)) : KalmanFilter :=
  zs.foldl KalmanFilter.step kf

/-! ## Scheduler (services/scheduler/app/tasks.py, `process_pending_alerts`)

The DB session becomes explicit lists of rows; `Float` columns become `ℚ`
(nullable ones `Option ℚ`); the MQTT publishes become a result list.  The
Haversine distance keeps its real-valued trigonometry. -/

/-- Alert row (scheduler/app/models.py `SatelliteAlert`). -/
structure SatelliteAlert where
  id : ℕ
  alert_type : String
  severity : String
  latitude : ℚ
  longitude : ℚ
  status : String
  assigned_uav_id : Option ℕ
deriving DecidableEq

/-- `calculate_distance`: great-circle (Haversine) distance in km. -/
noncomputable def calculate_distance (lat1 lon1 lat2 lon2 : ℚ) : ℝ :=
  let R : ℝ := 6371
  let rad : ℝ → ℝ := fun d => d * Real.pi / 180
  let lat1_rad := rad lat1
  let lat2_rad := rad lat2
  let delta_lat := rad ((lat2 : ℝ) - lat1)
  let delta_lon := rad ((lon2 : ℝ) - lon1)
  let a := Real.sin (delta_lat / 2) ^ 2 +
    Real.cos lat1_rad * Real.cos lat2_rad * Real.sin (delta_lon / 2) ^ 2
  R * (2 * Real.arcsin (Real.sqrt a))

/-- Python truthiness of a nullable float column: `None` and `0.0` are
falsy. -/
def qTruthy : Option ℚ → Bool
  | none => false
  | some v => v ≠ 0

/-- The candidate filter inside the UAV loop: both coordinates truthy. -/
def hasPosition (u : UAV) : Bool :=
  qTruthy u.current_latitude && qTruthy u.current_longitude

/-- Haversine distance from an alert to a UAV's stored position. -/
noncomputable def uavDistance (a : SatelliteAlert) (u : UAV) : ℝ :=
  calculate_distance a.latitude a.longitude
    (u.current_latitude.getD 0) (u.current_longitude.getD 0)

/-- One step of the inner `for uav in available_uavs` loop: a UAV with
truthy coordinates replaces the incumbent only when strictly nearer
(`min_distance` starts at `inf`, embedded as `none`). -/
noncomputable def fbStep (a : SatelliteAlert) (acc : Option UAV × Option ℝ)
    (u : UAV) : Option UAV × Option ℝ :=
  if hasPosition u then
    let d := uavDistance a u
    match acc.2 with
    | none => (some u, some d)
    | some m => if d < m then (some u, some d) else acc
  else acc

/-- The inner loop: track the best UAV and its distance. -/
noncomputable def find_best_uav (a : SatelliteAlert) (uavs : List UAV) :
    Option UAV × Option ℝ :=
  uavs.foldl (fbStep a) (none, none)

/-- Mission command published on `uav/<id>/mission`. -/
structure MissionMsg where
  uav_id : ℕ
  alert_id : ℕ
  target_latitude : ℚ
  target_longitude : ℚ
  alert_type : String
  severity : String
deriving DecidableEq

/-- Scheduler-tick result: assignments `(alert id, uav id)`, published
mission commands, and the remaining available-UAV pool. -/
structure TickResult where
  assignments : List (ℕ × ℕ)
  published : List MissionMsg
  pool : List UAV

/-- One step of the outer `for alert in pending_alerts` loop.  A `break`
on an empty pool is folded as a skip: once the pool is empty it stays
empty and the loop body has no other effect. -/
noncomputable def assignStep (st : TickResult) (a : SatelliteAlert) :
    TickResult :=
  if st.pool = [] then st else
  match (find_best_uav a st.pool).1 with
  | none => st
  | some best =>
    { assignments := st.assignments ++ [(a.id, best.id)],
      published := st.published ++
        [⟨best.id, a.id, a.latitude, a.longitude, a.alert_type, a.severity⟩],
      pool := st.pool.erase best }

/-- The outer loop over the pending alerts. -/
noncomputable def assignLoop (pending : List SatelliteAlert)
    (available : List UAV) : TickResult :=
  pending.foldl assignStep ⟨[], [], available⟩

/-- `process_pending_alerts`: snapshot pending alerts and eligible UAVs
(`status == "idle"` and `battery_level > 30`), run the assignment loop,
and apply the row mutations (`alert.status ← "assigned"`,
`alert.assigned_uav_id`, `uav.status ← "assigned"`). -/
noncomputable def process_pending_alerts (alerts : List SatelliteAlert)
    (uavs : List UAV) :
    List SatelliteAlert × List UAV × List MissionMsg :=
  let pending := alerts.filter (fun a => a.status == "pending")
  let available := uavs.filter (fun u =>
    u.status == "idle" && decide (u.battery_level > 30))
  let r := assignLoop pending available
  (alerts.map (fun a =>
      match r.assignments.lookup a.id with
      | some uid =>
        { a with status := "assigned", assigned_uav_id := some uid }
      | none => a),
   uavs.map (fun u =>
      if r.assignments.any (fun p => p.2 = u.id) then
        { u with status := "assigned" }
      else u),
   r.published)

/-- Scenario row: a low-severity alert enqueued first. -/
def alertLow : SatelliteAlert := ⟨1, "fire", "low", 10, 10, "pending", none⟩

/-- Scenario row: a critical alert enqueued second. -/
def alertCritical : SatelliteAlert :=
  ⟨2, "flood", "critical", 11, 11, "pending", none⟩

/-- Scenario row: the single eligible UAV. -/
def uavIdle : UAV := ⟨7, "u7", "idle", 80, some 10, some 10⟩

/-- Scenario row: an idle UAV with battery exactly at the threshold 30. -/
def uavBattery30 : UAV := ⟨3, "u3", "idle", 30, some 10, some 10⟩

/-- Scenario row: an ineligible (charging) UAV. -/
def uavCharging : UAV := ⟨4, "u4", "charging", 80, some 10, some 10⟩

/-- Scenario rows: two UAVs parked at the same position; the first has
the smaller battery and the smaller identifier. -/
def uavNearLowBattery : UAV := ⟨1, "u1", "idle", 50, some 10, some 10⟩

/-- Second UAV at the same position with the higher battery. -/
def uavNearHighBattery : UAV := ⟨2, "u2", "idle", 90, some 10, some 10⟩

/-! ## Dubins planner (services/api/app/algorithms.py, `DubinsPathPlanner`) -/

/-- The six canonical Dubins families. -/
inductive DubinsPathType where
  | LSL | LSR | RSL | RSR | RLR | LRL
deriving DecidableEq

/-- A planned Dubins path: family, the three segment lengths `(t, p, q)`
in the unit-radius frame, and the reported total length. -/
structure DubinsPath where
  path_type : DubinsPathType
  t : ℝ
  p : ℝ
  q : ℝ
  total_length : ℝ

/-- `math.atan2` (C convention). -/
noncomputable def atan2 (y x : ℝ) : ℝ :=
  if 0 < x then Real.arctan (y / x)
  else if x < 0 ∧ 0 ≤ y then Real.arctan (y / x) + Real.pi
  else if x < 0 ∧ y < 0 then Real.arctan (y / x) - Real.pi
  else if x = 0 ∧ 0 < y then Real.pi / 2
  else if x = 0 ∧ y < 0 then -(Real.pi / 2)
  else 0

/-- `_mod2pi`: normalise an angle into `[0, 2π)`. -/
noncomputable def mod2pi (θ : ℝ) : ℝ :=
  θ - 2 * Real.pi * ⌊θ / (2 * Real.pi)⌋

/-- `_LSL` family: feasible when its radicand is nonnegative. -/
noncomputable def dubinsLSL (ρ α β d : ℝ) : Option DubinsPath :=
  let sa := Real.sin α
  let sb := Real.sin β
  let ca := Real.cos α
  let cb := Real.cos β
  let c_ab := Real.cos (α - β)
  let tmp := 2 + d * d - 2 * c_ab + 2 * d * (sa - sb)
  if 0 ≤ tmp then
    let t := mod2pi (-α + atan2 (cb - ca) (d + sa - sb))
    let p := Real.sqrt (max 0 tmp)
    let q := mod2pi (β - atan2 (cb - ca) (d + sa - sb))
    some ⟨.LSL, t, p, q, (t + p + q) * ρ⟩
  else none

/-- `_RSR` family. -/
noncomputable def dubinsRSR (ρ α β d : ℝ) : Option DubinsPath :=
  let sa := Real.sin α
  let sb := Real.sin β
  let ca := Real.cos α
  let cb := Real.cos β
  let c_ab := Real.cos (α - β)
  let tmp := 2 + d * d - 2 * c_ab + 2 * d * (sb - sa)
  if 0 ≤ tmp then
    let t := mod2pi (α - atan2 (ca - cb) (d - sa + sb))
    let p := Real.sqrt (max 0 tmp)
    let q := mod2pi (-β + atan2 (ca - cb) (d - sa + sb))
    some ⟨.RSR, t, p, q, (t + p + q) * ρ⟩
  else none

/-- `_LSR` family. -/
noncomputable def dubinsLSR (ρ α β d : ℝ) : Option DubinsPath :=
  let sa := Real.sin α
  let sb := Real.sin β
  let ca := Real.cos α
  let cb := Real.cos β
  let c_ab := Real.cos (α - β)
  let p_squared := -2 + d * d + 2 * c_ab + 2 * d * (sa + sb)
  if 0 ≤ p_squared then
    let p := Real.sqrt p_squared
    let t := mod2pi (-α + atan2 (-ca - cb) (d + sa + sb) - atan2 (-2) p)
    let q := mod2pi (-β + atan2 (-ca - cb) (d + sa + sb) - atan2 (-2) p)
    some ⟨.LSR, t, p, q, (t + p + q) * ρ⟩
  else none

/-- `_RSL` family. -/
noncomputable def dubinsRSL (ρ α β d : ℝ) : Option DubinsPath :=
  let sa := Real.sin α
  let sb := Real.sin β
  let ca := Real.cos α
  let cb := Real.cos β
  let c_ab := Real.cos (α - β)
  let p_squared := -2 + d * d + 2 * c_ab - 2 * d * (sa + sb)
  if 0 ≤ p_squared then
    let p := Real.sqrt p_squared
    let t := mod2pi (α - atan2 (ca + cb) (d - sa - sb) + atan2 2 p)
    let q := mod2pi (β - atan2 (ca + cb) (d - sa - sb) + atan2 2 p)
    some ⟨.RSL, t, p, q, (t + p + q) * ρ⟩
  else none

/-- `_RLR` family: feasible when the arccos argument is in `[-1, 1]`. -/
noncomputable def dubinsRLR (ρ α β d : ℝ) : Option DubinsPath :=
  let sa := Real.sin α
  let sb := Real.sin β
  let ca := Real.cos α
  let cb := Real.cos β
  let c_ab := Real.cos (α - β)
  let tmp := (6 - d * d + 2 * c_ab + 2 * d * (sa - sb)) / 8
  if |tmp| ≤ 1 then
    let p := mod2pi (2 * Real.pi - Real.arccos tmp)
    let t := mod2pi (α - atan2 (ca - cb) (d - sa + sb) + p / 2)
    let q := mod2pi (α - β - t + p)
    some ⟨.RLR, t, p, q, (t + p + q) * ρ⟩
  else none

/-- `_LRL` family. -/
noncomputable def dubinsLRL (ρ α β d : ℝ) : Option DubinsPath :=
  let sa := Real.sin α
  let sb := Real.sin β
  let ca := Real.cos α
  let cb := Real.cos β
  let c_ab := Real.cos (α - β)
  let tmp := (6 - d * d + 2 * c_ab + 2 * d * (sb - sa)) / 8
  if |tmp| ≤ 1 then
    let p := mod2pi (2 * Real.pi - Real.arccos tmp)
    let t := mod2pi (-α - atan2 (ca - cb) (d + sa - sb) + p / 2)
    let q := mod2pi (β - α - t + p)
    some ⟨.LRL, t, p, q, (t + p + q) * ρ⟩
  else none

/-- The candidate list in the source's evaluation order
`[_LSL, _RSR, _LSR, _RSL, _RLR, _LRL]`, at the normalised arguments. -/
noncomputable def dubinsCandidates (ρ α β d : ℝ) : List (Option DubinsPath) :=
  [dubinsLSL ρ α β d, dubinsRSR ρ α β d, dubinsLSR ρ α β d,
   dubinsRSL ρ α β d, dubinsRLR ρ α β d, dubinsLRL ρ α β d]

/-- One step of the `best_path` selection: a feasible candidate replaces
the incumbent only when its `total_length` is strictly smaller
(`best_length` starts at `inf`, so the first feasible candidate always
enters). -/
noncomputable def dubinsStep (best c : Option DubinsPath) :
    Option DubinsPath :=
  match c, best with
  | some pth, none => some pth
  | some pth, some b =>
    if pth.total_length < b.total_length then some pth else some b
  | none, b => b

/-- The `best_path` selection loop over the candidate list. -/
noncomputable def dubinsSelect (cands : List (Option DubinsPath)) :
    Option DubinsPath :=
  cands.foldl dubinsStep none

/-- Normalised arguments of `plan_path`: `d`, then `α`, `β` relative to
the line from start to goal. -/
noncomputable def dubinsNormalize (ρ : ℝ) (s g : ℝ × ℝ × ℝ) : ℝ × ℝ × ℝ :=
  let dx := g.1 - s.1
  let dy := g.2.1 - s.2.1
  let d := Real.sqrt (dx * dx + dy * dy) / ρ
  let θ := atan2 dy dx
  (mod2pi (s.2.2 - θ), mod2pi (g.2.2 - θ), d)

/-- `plan_path`: normalise, evaluate all six families, return the
shortest feasible one (`None` when all six are infeasible). -/
noncomputable def plan_path (ρ : ℝ) (s g : ℝ × ℝ × ℝ) : Option DubinsPath :=
  let n := dubinsNormalize ρ s g
  dubinsSelect (dubinsCandidates ρ n.1 n.2.1 n.2.2)

/-! ## A* pathfinder (services/api/app/algorithms.py, `AStarPathfinder`)

Cells are integer pairs.  The two step costs of the source, `1.0` and
`1.4`, are exact multiples of `1/5`, so path costs are carried in integer
fifths (`5` and `7` units); `costVal` maps units back to the rational
cost.  A heap priority `new_cost + sqrt(dx² + dy²)` is represented
exactly as the pair `(cost in fifths, radicand)` denoting the real
`units/5 + √radicand`; `priLtB`/`priEqB` decide the real order of two
such values by integer arithmetic (correctness is proved in
`priLtB_correct`/`priEqB_correct` below).  `heapq` pops the minimum of
the heap — entries are compared as Python tuples, priority first, then
cell — and `popMin` extracts that minimum from the frontier list. -/

/-- Grid cell. -/
abbrev Cell : Type := ℤ × ℤ

/-- `get_neighbors`: the 8-connected in-bounds unblocked neighbours, in
the source's `dx`-major, `dy`-minor order. -/
def get_neighbors (W H : ℤ) (obstacles : List Cell) (pos : Cell) :
    List Cell :=
  ([-1, 0, 1] : List ℤ).flatMap (fun dx =>
    ([-1, 0, 1] : List ℤ).filterMap (fun dy =>
      if dx = 0 ∧ dy = 0 then none
      else
        let n : Cell := (pos.1 + dx, pos.2 + dy)
        if 0 ≤ n.1 ∧ n.1 < W ∧ 0 ≤ n.2 ∧ n.2 < H ∧ n ∉ obstacles then
          some n
        else none))

/-- Step cost in fifths: `7` (i.e. `1.4`) for a diagonal move, `5`
(i.e. `1.0`) otherwise. -/
def step_cost_u (cur nxt : Cell) : ℕ :=
  if (nxt.1 - cur.1).natAbs + (nxt.2 - cur.2).natAbs = 2 then 7 else 5

/-- Units-of-one-fifth to rational cost. -/
def costVal (u : ℕ) : ℚ := (u : ℚ) / 5

/-- Heuristic radicand `(bx-ax)² + (by-ay)²`; the heuristic itself is its
square root. -/
def hrad (a b : Cell) : ℕ := ((b.1 - a.1) ^ 2 + (b.2 - a.2) ^ 2).toNat

/-- Decide `a + √m < b + √n` for integers `a b` and naturals `m n`. -/
def ltRoot (a : ℤ) (m : ℕ) (b : ℤ) (n : ℕ) : Bool :=
  let δ : ℤ := b - a
  if 0 ≤ δ then
    let e : ℤ := (m : ℤ) - n - δ ^ 2
    if e < 0 then true else decide (e ^ 2 < 4 * δ ^ 2 * n)
  else
    let e : ℤ := (n : ℤ) - m - δ ^ 2
    decide (0 < e ∧ 4 * δ ^ 2 * m < e ^ 2)

/-- Decide `a + √m = b + √n` for integers `a b` and naturals `m n`. -/
def eqRoot (a : ℤ) (m : ℕ) (b : ℤ) (n : ℕ) : Bool :=
  let δ : ℤ := b - a
  if 0 ≤ δ then
    let e : ℤ := (m : ℤ) - n - δ ^ 2
    decide (0 ≤ e ∧ e ^ 2 = 4 * δ ^ 2 * n)
  else
    let e : ℤ := (n : ℤ) - m - δ ^ 2
    decide (0 ≤ e ∧ e ^ 2 = 4 * δ ^ 2 * m)

/-- Heap priority: `(g in fifths, heuristic radicand)`, denoting the real
number `g/5 + √radicand`. -/
abbrev Pri : Type := ℕ × ℕ

/-- The real value a priority pair denotes. -/
noncomputable def Pri.val (p : Pri) : ℝ := (p.1 : ℝ) / 5 + Real.sqrt p.2

/-- Order on priorities: `g/5 + √m < g'/5 + √n` iff
`g + √(25m) < g' + √(25n)`. -/
def priLtB (p q : Pri) : Bool := ltRoot p.1 (25 * p.2) q.1 (25 * q.2)

/-- Equality of denoted priorities. -/
def priEqB (p q : Pri) : Bool := eqRoot p.1 (25 * p.2) q.1 (25 * q.2)

/-- Frontier entry: the Python heap tuple `(priority, (x, y))`. -/
abbrev Entry : Type := Pri × Cell

/-- Python tuple order on entries: by priority value, ties by cell,
lexicographically. -/
def entryLtB (x y : Entry) : Bool :=
  priLtB x.1 y.1 ||
    (priEqB x.1 y.1 &&
      (decide (x.2.1 < y.2.1) ||
        (decide (x.2.1 = y.2.1) && decide (x.2.2 < y.2.2))))

/-- Extract the minimum entry (what `heapq.heappop` returns) and the rest
of the frontier. -/
def popMin (l : List Entry) : Option (Entry × List Entry) :=
  match l with
  | [] => none
  | e :: rest =>
    let m := rest.foldl (fun best x => if entryLtB x best then x else best) e
    some (m, (e :: rest).erase m)

/-- `cost_so_far` dictionary: cell to cost in fifths. -/
abbrev CostMap : Type := List (Cell × ℕ)

/-- `came_from` dictionary: cell to optional parent. -/
abbrev ParentMap : Type := List (Cell × Option Cell)

/-- Dictionary write: replace the first binding of the key if present,
otherwise append the new binding. -/
def setKey {α : Type} : List (Cell × α) → Cell → α → List (Cell × α)
  | [], k, v => [(k, v)]
  | p :: m, k, v => if p.1 = k then (k, v) :: m else p :: setKey m k v

/-- Search state: frontier heap, parent map, cost map. -/
structure AState where
  frontier : List Entry
  came_from : ParentMap
  cost_so_far : CostMap

/-- Relax one neighbour of the popped cell: a neighbour that is new or
whose cost strictly improves gets its cost and parent written and an
entry `(new_cost + heuristic, cell)` pushed. -/
def relaxStep (goal current : Cell) (st : AState) (next : Cell) : AState :=
  let new_cost := ((st.cost_so_far.lookup current).getD 0) +
    step_cost_u current next
  let relax : Bool :=
    match st.cost_so_far.lookup next with
    | none => true
    | some old => decide (new_cost < old)
  if relax then
    { frontier := ((new_cost, hrad next goal), next) :: st.frontier,
      came_from := setKey st.came_from next (some current),
      cost_so_far := setKey st.cost_so_far next new_cost }
  else st

/-- Relax all neighbours of the popped cell. -/
def expand (W H : ℤ) (obstacles : List Cell) (goal current : Cell)
    (st : AState) : AState :=
  (get_neighbors W H obstacles current).foldl (relaxStep goal current) st

/-- The main search loop: pop the minimum entry, stop on the goal,
otherwise expand and continue.  `fuel` dominates the iteration count
(`astar_fuel_sufficient` below shows the chosen bound is never
exhausted). -/
def astar_loop (W H : ℤ) (obstacles : List Cell) (goal : Cell) :
    ℕ → AState → AState
  | 0, st => st
  | Nat.succ fuel, st =>
    match popMin st.frontier with
    | none => st
    | some (e, rest) =>
      if e.2 = goal then st
      else
        astar_loop W H obstacles goal fuel
          (expand W H obstacles goal e.2 { st with frontier := rest })

/-- Path reconstruction: follow parents from the goal, prepending, until
the `None` parent of the start (prepending builds the reversed-append
list of the source directly). -/
def reconstruct (came_from : ParentMap) : ℕ → Cell → List Cell → List Cell
  | 0, c, acc => c :: acc
  | Nat.succ fuel, c, acc =>
    match came_from.lookup c with
    | some (some par) => reconstruct came_from fuel par (c :: acc)
    | _ => c :: acc

/-- Number of grid cells. -/
def gridCells (W H : ℤ) : ℕ := W.toNat * H.toNat

/-- Iteration budget: one more than a bound on the loop's potential
function. -/
def fuelBound (W H : ℤ) : ℕ :=
  (gridCells W H + 1) * (7 * (gridCells W H + 1) + 2) + 1

/-- `find_path`: run the loop from the singleton frontier `(0, start)`,
then reconstruct if the goal acquired a parent entry, else `None`. -/
def find_path (W H : ℤ) (obstacles : List Cell) (start goal : Cell) :
    Option (List Cell) :=
  let st0 : AState := ⟨[((0, 0), start)], [(start, none)], [(start, 0)]⟩
  let fin := astar_loop W H obstacles goal (fuelBound W H) st0
  match fin.came_from.lookup goal with
  | none => none
  | some _ =>
    some (reconstruct fin.came_from (7 * fin.came_from.length + 7) goal [])

/-- Rational cost of a cell sequence under the source's step model
(`1.0` cardinal, `1.4` diagonal). -/
def pathCost : List Cell → ℚ
  | a :: b :: rest => costVal (step_cost_u a b) + pathCost (b :: rest)
  | _ => 0

/-- One search edge: `b` is an in-bounds unblocked 8-neighbour of `a`. -/
def AdjStep (W H : ℤ) (obstacles : List Cell) (a b : Cell) : Prop :=
  b ∈ get_neighbors W H obstacles a

/-- Reachability along search edges. -/
def Reach (W H : ℤ) (obstacles : List Cell) (a b : Cell) : Prop :=
  Relation.ReflTransGen (AdjStep W H obstacles) a b

/-- A sequence every consecutive pair of which is a search edge. -/
def ValidSeq (W H : ℤ) (obstacles : List Cell) (l : List Cell) : Prop :=
  List.Chain' (AdjStep W H obstacles) l

/-- Integer-fifths cost of a cell sequence. -/
def pathCostU : List Cell → ℕ
  | a :: b :: rest => step_cost_u a b + pathCostU (b :: rest)
  | _ => 0

/-- Keys of a dictionary. -/
def mapKeys {α : Type} (m : List (Cell × α)) : List Cell := m.map Prod.fst

/-- Invariant of the search state, relating the frontier, parent map and
cost map to the grid: keys are deduplicated and shared by both maps, the
start is bound to cost 0 and parent `None`, every key is the start or an
in-bounds unblocked cell reachable from the start, frontier entries point
into the key set, every parent binding is a search edge along which the
cost grows by at least one cardinal step, costs are bounded by `7·|keys|`,
and every key either still has a frontier entry or has had all its
neighbours relaxed. -/
structure AInvCore (W H : ℤ) (obstacles : List Cell) (start : Cell)
    (st : AState) : Prop where
  nodup : (mapKeys st.cost_so_far).Nodup
  same : mapKeys st.came_from = mapKeys st.cost_so_far
  start_cost : st.cost_so_far.lookup start = some 0
  start_parent : st.came_from.lookup start = some none
  grid : ∀ c ∈ mapKeys st.cost_so_far, c = start ∨
    (0 ≤ c.1 ∧ c.1 < W ∧ 0 ≤ c.2 ∧ c.2 < H ∧ c ∉ obstacles)
  reach : ∀ c ∈ mapKeys st.cost_so_far, Reach W H obstacles start c
  frontier_keys : ∀ e ∈ st.frontier, e.2 ∈ mapKeys st.cost_so_far
  parent_edge : ∀ c pc, st.came_from.lookup c = some (some pc) →
    AdjStep W H obstacles pc c ∧
    ∃ gc gp, st.cost_so_far.lookup c = some gc ∧
      st.cost_so_far.lookup pc = some gp ∧ gp + 5 ≤ gc
  parent_none : ∀ c, st.came_from.lookup c = some none → c = start
  cost_bound : ∀ c g, st.cost_so_far.lookup c = some g →
    g ≤ 7 * (mapKeys st.cost_so_far).length

/-- The full invariant adds: every key either still has a frontier entry
or has had all its neighbours relaxed. -/
structure AInv (W H : ℤ) (obstacles : List Cell) (start : Cell)
    (st : AState) extends AInvCore W H obstacles start st : Prop where
  expanded : ∀ c ∈ mapKeys st.cost_so_far,
    (∃ e ∈ st.frontier, e.2 = c) ∨
    ∀ nb ∈ get_neighbors W H obstacles c, nb ∈ mapKeys st.cost_so_far

/-- Mid-expansion bookkeeping: every key has a frontier entry, or is
fully relaxed, or is the cell being expanded and its unrelaxed
neighbours all lie in the still-pending list `pend`. -/
def ExpandOk (W H : ℤ) (obstacles : List Cell) (current : Cell)
    (pend : List Cell) (st : AState) : Prop :=
  ∀ c ∈ mapKeys st.cost_so_far,
    (∃ e ∈ st.frontier, e.2 = c) ∨
    (∀ nb ∈ get_neighbors W H obstacles c, nb ∈ mapKeys st.cost_so_far) ∨
    (c = current ∧ ∀ nb ∈ get_neighbors W H obstacles current,
      nb ∈ pend ∨ nb ∈ mapKeys st.cost_so_far)

/-- Potential of a search state: every loop iteration strictly decreases
it, so it bounds the remaining iteration count. -/
def potential (W H : ℤ) (st : AState) : ℕ :=
  st.frontier.length + (st.cost_so_far.map Prod.snd).sum +
    (gridCells W H + 1 - st.cost_so_far.length) *
      (7 * (gridCells W H + 1) + 2)

/-- Obstacle list of the suboptimality scenario: a 19x28 grid whose open
cells are two corridors from (15,27) to (0,0) - a cheaper one ending in a
long pure diagonal, and a dearer one ending on the x-axis. -/
def bigObstacles : List Cell := [(0,1), (0,2), (1,2), (1,3), (2,1), (2,3), (2,4), (3,1), (3,2), (3,4), (3,5), (4,0), (4,2), (4,3), (4,5), (4,6), (5,0), (5,1), (5,3), (5,4), (5,6), (5,7), (6,1), (6,2), (6,4), (6,5), (6,7), (6,8), (7,2), (7,3), (7,5), (7,6), (7,8), (7,9), (8,3), (8,4), (8,6), (8,7), (8,9), (8,10), (9,4), (9,5), (9,7), (9,8), (9,10), (9,11), (10,5), (10,6), (10,8), (10,9), (10,11), (10,12), (11,6), (11,7), (11,9), (11,10), (11,12), (11,13), (12,7), (12,8), (12,10), (12,11), (12,13), (12,14), (13,8), (13,9), (13,11), (13,12), (13,14), (13,15), (13,17), (13,18), (13,19), (13,20), (13,21), (13,22), (13,23), (13,24), (13,25), (13,26), (13,27), (14,9), (14,10), (14,12), (14,13), (14,15), (14,16), (14,17), (14,19), (14,21), (14,23), (14,25), (14,27), (15,10), (15,11), (15,13), (15,14), (15,18), (15,20), (15,22), (15,24), (15,26), (16,11), (16,12), (16,14), (16,15), (16,16), (16,17), (16,18), (16,19), (16,20), (16,21), (16,22), (16,23), (16,24), (16,25), (16,27), (17,12), (17,13), (17,15), (17,16), (17,17), (17,18), (17,19), (17,20), (17,21), (17,22), (17,23), (17,24), (17,26), (17,27), (18,13), (18,14), (18,25), (18,26)]

/-- The path the search returns on the scenario grid (cost 37.2). -/
def bigReturned : List Cell := [(15, 27), (16, 26), (17, 25), (18, 24), (18, 23), (18, 22), (18, 21), (18, 20), (18, 19), (18, 18), (18, 17), (18, 16), (18, 15), (17, 14), (16, 13), (15, 12), (14, 11), (13, 10), (12, 9), (11, 8), (10, 7), (9, 6), (8, 5), (7, 4), (6, 3), (5, 2), (4, 1), (3, 0), (2, 0), (1, 0), (0, 0)]

/-- A strictly cheaper valid path on the same grid (cost 37.0). -/
def bigAlt : List Cell := [(15, 27), (14, 26), (15, 25), (14, 24), (15, 23), (14, 22), (15, 21), (14, 20), (15, 19), (14, 18), (15, 17), (15, 16), (15, 15), (14, 14), (13, 13), (12, 12), (11, 11), (10, 10), (9, 9), (8, 8), (7, 7), (6, 6), (5, 5), (4, 4), (3, 3), (2, 2), (1, 1), (0, 0)]


/-! ## Theorems: coverage patterns, telemetry, Kalman -/

/-- Every pass of the lawnmower generator contributes exactly two
waypoints. -/
theorem length_flatMap_const2 {β : Type} (f : ℕ → List β)
    (h : ∀ i, (f i).length = 2) (k : ℕ) :
    ((List.range k).flatMap f).length = 2 * k := by
  rw [List.length_flatMap]
  have hm : List.map (List.length ∘ f) (List.range k) =
      List.map (fun _ => 2) (List.range k) :=
    List.map_congr_left (fun i _ => h i)
  rw [hm, List.map_const']
  simp [List.sum_replicate, Nat.mul_comm]

/-- Claim C8 (amended): the source computes `num_passes = int(H/s) + 1`,
so for positive `H`, `s` the generator returns `2 * (⌊H/s⌋ + 1)` endpoint
waypoints; this equals `2 * ⌈H/s⌉` except when `s` divides `H`. -/
theorem lawnmower_waypoint_count (center_lat center_lon width_m height_m
    spacing_m altitude_m : ℝ) (hh : 0 < height_m) (hs : 0 < spacing_m) :
    (generate_lawnmower center_lat center_lon width_m height_m spacing_m
      altitude_m).length = 2 * ((⌊height_m / spacing_m⌋).toNat + 1) := by
  have h0 : (0:ℝ) ≤ height_m / spacing_m := by positivity
  have hf : 0 ≤ ⌊height_m / spacing_m⌋ := Int.floor_nonneg.2 h0
  unfold generate_lawnmower pyInt
  rw [if_pos h0, length_flatMap_const2 _ (fun i => by dsimp only; split <;> rfl)]
  omega

/-- Claim C8 counterexample: at `H = 10`, `s = 5` the generator returns 6
waypoints while the claimed count is `2 * ⌈10/5⌉ = 4`. -/
theorem lawnmower_count_counterexample :
    (generate_lawnmower 0 0 100 10 5 100).length = 6 ∧
      (⌈(10:ℝ)/5⌉ : ℤ) = 2 := by
  constructor
  · unfold generate_lawnmower pyInt
    norm_num
    simp [List.range_succ]
  · norm_num

/-- Witness for C8 (amended) at `H = 10`, `s = 4`. -/
theorem lawnmower_waypoint_count_witness :
    (generate_lawnmower 0 0 100 10 4 100).length =
      2 * ((⌊(10:ℝ)/4⌋).toNat + 1) :=
  lawnmower_waypoint_count 0 0 100 10 4 100 (by norm_num) (by norm_num)

/-- Even positions of a centroid/perimeter interleaving are the centroid. -/
theorem flatMap_pairs_getD_even {β : Type} (c d : β) (f : ℕ → β)
    (k i : ℕ) (hi : 2 * i < 2 * k) :
    (((List.range k).flatMap (fun j => [c, f j])).getD (2 * i) d) = c := by
  induction k with
  | zero => omega
  | succ k ih =>
    rw [List.range_succ, List.flatMap_append]
    have hlen : ((List.range k).flatMap (fun j => [c, f j])).length = 2 * k :=
      length_flatMap_const2 (fun j => [c, f j]) (fun _ => rfl) k
    rcases lt_or_ge (2 * i) (2 * k) with h | h
    · rw [List.getD_append _ _ _ _ (by omega)]
      exact ih h
    · have h2 : 2 * i = 2 * k := by omega
      rw [List.getD_eq_getElem?_getD, List.getElem?_append_right (by omega)]
      simp [hlen, h2]

/-- Claim C10. -/
theorem sector_scan_spec (center_lat center_lon radius_m a0 a1 : ℝ)
    (n : ℤ) (alt : ℝ) :
    (n = 1 →
      generate_sector_scan center_lat center_lon radius_m a0 a1 n alt = none) ∧
    (2 ≤ n → ∃ l,
      generate_sector_scan center_lat center_lon radius_m a0 a1 n alt = some l ∧
      l.length = 2 * n.toNat ∧
      ∀ i : ℕ, 2 * i < l.length →
        l.getD (2 * i) { lat := 0, lon := 0 } =
          { lat := center_lat, lon := center_lon, alt := alt } ) := by
  constructor
  · intro h; subst h
    unfold generate_sector_scan
    simp
  · intro h2
    unfold generate_sector_scan
    rw [if_neg (by omega)]
    refine ⟨_, rfl, ?_, ?_⟩
    · refine length_flatMap_const2 _ (fun i => ?_) _
      rfl
    · intro i hi
      have hl : ∀ i, (List.length ((fun j : ℕ =>
          [({ lat := center_lat, lon := center_lon, alt := alt } : Waypoint),
           { lat := center_lat + radius_m *
               Real.sin ((a0 + (j : ℝ) * ((a1 - a0) / ((n : ℝ) - 1))) * Real.pi / 180) / 111320.0,
             lon := center_lon + radius_m *
               Real.cos ((a0 + (j : ℝ) * ((a1 - a0) / ((n : ℝ) - 1))) * Real.pi / 180) /
                 (111320.0 * Real.cos (center_lat * Real.pi / 180)),
             alt := alt }]) i)) = 2 := fun _ => rfl
      rw [length_flatMap_const2 _ hl _] at hi
      exact flatMap_pairs_getD_even _ _ _ _ _ hi

/-- Witness for C10 at `num_radials = 1` and `num_radials = 3`. -/
theorem sector_scan_spec_witness :
    generate_sector_scan 0 0 100 0 90 1 100 = none ∧
    (∃ l, generate_sector_scan 0 0 100 0 90 3 100 = some l ∧
      l.length = 2 * (3 : ℤ).toNat ∧
      ∀ i : ℕ, 2 * i < l.length →
        l.getD (2 * i) { lat := 0, lon := 0 } =
          { lat := (0:ℝ), lon := (0:ℝ), alt := (100:ℝ) }) :=
  ⟨(sector_scan_spec 0 0 100 0 90 1 100).1 rfl,
   (sector_scan_spec 0 0 100 0 90 3 100).2 (by norm_num)⟩

/-- Claim C6 (code-bug evidence): `handle_telemetry` leaves the registry
unchanged even though the payload carries a new position and battery. -/
theorem handle_telemetry_is_noop :
    handle_telemetry [⟨1, "uav-1", "idle", 80, some 10, some 10⟩]
        "telemetry/uav-1" ⟨1, 37, -122, 55, 1000⟩
      = [⟨1, "uav-1", "idle", 80, some 10, some 10⟩] ∧
    ((⟨1, "uav-1", "idle", 80, some 10, some 10⟩ : UAV).battery_level ≠ 55 ∧
     (⟨1, "uav-1", "idle", 80, some 10, some 10⟩ : UAV).current_latitude ≠ some 37) :=
  ⟨rfl, by constructor <;> simp⟩

/-- Exact final state of the Kalman run of claim C7. -/
theorem kalman_final_state :
    ((KalmanFilter.mk0 1).run [(0,0),(1,0),(2,0),(3,0)]).x =
      some [68003003/22831941, 0, 22417682/22831941, 0] := by
  norm_num [KalmanFilter.run, KalmanFilter.step, KalmanFilter.predict,
    KalmanFilter.update, KalmanFilter.initialize, KalmanFilter.mk0,
    matMul, matAdd, matSub, matSmul, transposeQ, dotQ, eyeQ, inv2,
    kfF, kfH, kfQ, kfR, List.range_succ]

/-- Claim C7. -/
theorem kalman_track_converges :
    ((KalmanFilter.mk0 1).run [(0,0),(1,0),(2,0),(3,0)]).x.isSome ∧
    (29/10 < ((((KalmanFilter.mk0 1).run [(0,0),(1,0),(2,0),(3,0)]).x.getD []).getD 0 0) ∧
     ((((KalmanFilter.mk0 1).run [(0,0),(1,0),(2,0),(3,0)]).x.getD []).getD 0 0) < 31/10) ∧
    ((((KalmanFilter.mk0 1).run [(0,0),(1,0),(2,0),(3,0)]).x.getD []).getD 1 0) = 0 ∧
    (4/5 < ((((KalmanFilter.mk0 1).run [(0,0),(1,0),(2,0),(3,0)]).x.getD []).getD 2 0) ∧
     ((((KalmanFilter.mk0 1).run [(0,0),(1,0),(2,0),(3,0)]).x.getD []).getD 2 0) < 6/5) := by
  rw [kalman_final_state]
  norm_num


/-! ## Theorems: Dubins planner -/

/-- The selection fold returns `none` iff the incumbent and all
candidates are `none`. -/
theorem foldl_dubinsStep_none (l : List (Option DubinsPath)) :
    ∀ acc, l.foldl dubinsStep acc = none ↔ acc = none ∧ ∀ o ∈ l, o = none := by
  induction l with
  | nil => simp
  | cons hd tl ih =>
    intro acc
    rw [List.foldl_cons, ih]
    rcases hd with _ | pth <;> rcases acc with _ | b
    · simp [dubinsStep]
    · simp [dubinsStep]
    · simp [dubinsStep]
    · simp only [dubinsStep]
      split <;> simp

/-- The selection fold result comes from the list or the incumbent. -/
theorem foldl_dubinsStep_mem (l : List (Option DubinsPath)) :
    ∀ acc p, l.foldl dubinsStep acc = some p →
      some p ∈ l ∨ acc = some p := by
  induction l with
  | nil => simp
  | cons hd tl ih =>
    intro acc p hfold
    rw [List.foldl_cons] at hfold
    rcases ih _ _ hfold with hmem | hstep
    · exact Or.inl (List.mem_cons_of_mem _ hmem)
    · rcases hd with _ | x <;> rcases acc with _ | b
      · simp [dubinsStep] at hstep
      · exact Or.inr hstep
      · simp [dubinsStep] at hstep
        exact Or.inl (by simp [hstep])
      · simp only [dubinsStep] at hstep
        split at hstep
        · exact Or.inl (by simp [← hstep])
        · exact Or.inr hstep

/-- The selection fold result is no longer than any feasible candidate
and no longer than the incumbent. -/
theorem foldl_dubinsStep_min (l : List (Option DubinsPath)) :
    ∀ acc p, l.foldl dubinsStep acc = some p →
      (∀ o ∈ l, ∀ x, o = some x → p.total_length ≤ x.total_length) ∧
      (∀ b, acc = some b → p.total_length ≤ b.total_length) := by
  induction l with
  | nil =>
    intro acc p h
    simp at h
    subst h
    exact ⟨by simp, fun b hb => by rw [Option.some_inj] at hb; rw [hb]⟩
  | cons hd tl ih =>
    intro acc p hfold
    rw [List.foldl_cons] at hfold
    obtain ⟨htl, hstep⟩ := ih _ _ hfold
    rcases hd with _ | x
    · have hacc : ∀ b, acc = some b → p.total_length ≤ b.total_length := by
        intro b hb
        exact hstep b (by rw [hb]; rfl)
      refine ⟨?_, hacc⟩
      intro o ho y hy
      rcases List.mem_cons.1 ho with rfl | ho
      · simp at hy
      · exact htl o ho y hy
    · rcases acc with _ | b
      · have hx : p.total_length ≤ x.total_length := hstep x rfl
        refine ⟨?_, by simp⟩
        intro o ho y hy
        rcases List.mem_cons.1 ho with rfl | ho
        · rw [Option.some_inj] at hy
          exact hy ▸ hx
        · exact htl o ho y hy
      · by_cases hlt : x.total_length < b.total_length
        · have hx : p.total_length ≤ x.total_length := by
            refine hstep x ?_
            simp only [dubinsStep]
            rw [if_pos hlt]
          have hb : p.total_length ≤ b.total_length :=
            le_trans hx (le_of_lt hlt)
          refine ⟨?_, fun b' hb' => by rw [Option.some_inj] at hb'; exact hb' ▸ hb⟩
          intro o ho y hy
          rcases List.mem_cons.1 ho with rfl | ho
          · rw [Option.some_inj] at hy
            exact hy ▸ hx
          · exact htl o ho y hy
        · have hb : p.total_length ≤ b.total_length := by
            refine hstep b ?_
            simp only [dubinsStep]
            rw [if_neg hlt]
          have hx : p.total_length ≤ x.total_length :=
            le_trans hb (le_of_not_lt hlt)
          refine ⟨?_, fun b' hb' => by rw [Option.some_inj] at hb'; exact hb' ▸ hb⟩
          intro o ho y hy
          rcases List.mem_cons.1 ho with rfl | ho
          · rw [Option.some_inj] at hy
            exact hy ▸ hx
          · exact htl o ho y hy

/-- Feasible `LSL` results report `total_length = (t+p+q)·ρ`. -/
theorem dubinsLSL_total (ρ α β d : ℝ) (x : DubinsPath)
    (h : dubinsLSL ρ α β d = some x) :
    x.total_length = (x.t + x.p + x.q) * ρ := by
  simp only [dubinsLSL] at h
  split at h
  · rw [Option.some_inj] at h; subst h; rfl
  · exact absurd h (by simp)

/-- Feasible `RSR` results report `total_length = (t+p+q)·ρ`. -/
theorem dubinsRSR_total (ρ α β d : ℝ) (x : DubinsPath)
    (h : dubinsRSR ρ α β d = some x) :
    x.total_length = (x.t + x.p + x.q) * ρ := by
  simp only [dubinsRSR] at h
  split at h
  · rw [Option.some_inj] at h; subst h; rfl
  · exact absurd h (by simp)

/-- Feasible `LSR` results report `total_length = (t+p+q)·ρ`. -/
theorem dubinsLSR_total (ρ α β d : ℝ) (x : DubinsPath)
    (h : dubinsLSR ρ α β d = some x) :
    x.total_length = (x.t + x.p + x.q) * ρ := by
  simp only [dubinsLSR] at h
  split at h
  · rw [Option.some_inj] at h; subst h; rfl
  · exact absurd h (by simp)

/-- Feasible `RSL` results report `total_length = (t+p+q)·ρ`. -/
theorem dubinsRSL_total (ρ α β d : ℝ) (x : DubinsPath)
    (h : dubinsRSL ρ α β d = some x) :
    x.total_length = (x.t + x.p + x.q) * ρ := by
  simp only [dubinsRSL] at h
  split at h
  · rw [Option.some_inj] at h; subst h; rfl
  · exact absurd h (by simp)

/-- Feasible `RLR` results report `total_length = (t+p+q)·ρ`. -/
theorem dubinsRLR_total (ρ α β d : ℝ) (x : DubinsPath)
    (h : dubinsRLR ρ α β d = some x) :
    x.total_length = (x.t + x.p + x.q) * ρ := by
  simp only [dubinsRLR] at h
  split at h
  · rw [Option.some_inj] at h; subst h; rfl
  · exact absurd h (by simp)

/-- Feasible `LRL` results report `total_length = (t+p+q)·ρ`. -/
theorem dubinsLRL_total (ρ α β d : ℝ) (x : DubinsPath)
    (h : dubinsLRL ρ α β d = some x) :
    x.total_length = (x.t + x.p + x.q) * ρ := by
  simp only [dubinsLRL] at h
  split at h
  · rw [Option.some_inj] at h; subst h; rfl
  · exact absurd h (by simp)

/-- Every feasible family in the candidate list reports
`total_length = (t+p+q)·ρ`. -/
theorem dubinsCandidates_total (ρ α β d : ℝ) :
    ∀ o ∈ dubinsCandidates ρ α β d, ∀ x, o = some x →
      x.total_length = (x.t + x.p + x.q) * ρ := by
  intro o ho x hx
  subst hx
  simp only [dubinsCandidates, List.mem_cons, List.not_mem_nil, or_false] at ho
  rcases ho with h | h | h | h | h | h
  · exact dubinsLSL_total ρ α β d x h.symm
  · exact dubinsRSR_total ρ α β d x h.symm
  · exact dubinsLSR_total ρ α β d x h.symm
  · exact dubinsRSL_total ρ α β d x h.symm
  · exact dubinsRLR_total ρ α β d x h.symm
  · exact dubinsLRL_total ρ α β d x h.symm

/-- Claim C3: `plan_path` evaluates the six families at the normalised
arguments, returns `None` exactly when all are infeasible, and otherwise
returns a feasible family's path whose reported total length is
`(t+p+q)·ρ` and is minimal among all feasible families. -/
theorem dubins_plan_path_spec (ρ : ℝ) (s g : ℝ × ℝ × ℝ) (hρ : 0 < ρ) :
    (plan_path ρ s g = none ↔
      ∀ o ∈ dubinsCandidates ρ (dubinsNormalize ρ s g).1
        (dubinsNormalize ρ s g).2.1 (dubinsNormalize ρ s g).2.2, o = none) ∧
    (∀ p, plan_path ρ s g = some p →
      some p ∈ dubinsCandidates ρ (dubinsNormalize ρ s g).1
        (dubinsNormalize ρ s g).2.1 (dubinsNormalize ρ s g).2.2 ∧
      p.total_length = (p.t + p.p + p.q) * ρ ∧
      ∀ o ∈ dubinsCandidates ρ (dubinsNormalize ρ s g).1
          (dubinsNormalize ρ s g).2.1 (dubinsNormalize ρ s g).2.2,
        ∀ x, o = some x → p.total_length ≤ x.total_length) := by
  constructor
  · rw [plan_path, dubinsSelect, foldl_dubinsStep_none]
    simp
  · intro p hp
    rw [plan_path] at hp
    rw [dubinsSelect] at hp
    have hmem : some p ∈ dubinsCandidates ρ (dubinsNormalize ρ s g).1
        (dubinsNormalize ρ s g).2.1 (dubinsNormalize ρ s g).2.2 := by
      rcases foldl_dubinsStep_mem _ _ _ hp with hm | habs
      · exact hm
      · exact absurd habs (by simp)
    exact ⟨hmem, dubinsCandidates_total _ _ _ _ _ hmem p rfl,
      (foldl_dubinsStep_min _ _ _ hp).1⟩

/-- Witness for C3 at `ρ = 1`, `start = (0,0,0)`, `goal = (4,0,0)`. -/
theorem dubins_plan_path_spec_witness :
    (plan_path 1 (0,0,0) (4,0,0) = none ↔
      ∀ o ∈ dubinsCandidates 1 (dubinsNormalize 1 (0,0,0) (4,0,0)).1
        (dubinsNormalize 1 (0,0,0) (4,0,0)).2.1
        (dubinsNormalize 1 (0,0,0) (4,0,0)).2.2, o = none) ∧
    (∀ p, plan_path 1 (0,0,0) (4,0,0) = some p →
      some p ∈ dubinsCandidates 1 (dubinsNormalize 1 (0,0,0) (4,0,0)).1
        (dubinsNormalize 1 (0,0,0) (4,0,0)).2.1
        (dubinsNormalize 1 (0,0,0) (4,0,0)).2.2 ∧
      p.total_length = (p.t + p.p + p.q) * 1 ∧
      ∀ o ∈ dubinsCandidates 1 (dubinsNormalize 1 (0,0,0) (4,0,0)).1
          (dubinsNormalize 1 (0,0,0) (4,0,0)).2.1
          (dubinsNormalize 1 (0,0,0) (4,0,0)).2.2,
        ∀ x, o = some x → p.total_length ≤ x.total_length) :=
  dubins_plan_path_spec 1 (0,0,0) (4,0,0) one_pos


/-! ## Theorems: scheduler -/

/-- Auxiliary: folding from a valid incumbent `b` returns a valid
first-strict minimum. -/
theorem fbStep_fold_aux (a : SatelliteAlert) :
    ∀ (l : List UAV) (b : UAV), hasPosition b = true →
      ∃ u, l.foldl (fbStep a) (some b, some (uavDistance a b)) =
          (some u, some (uavDistance a u)) ∧
        hasPosition u = true ∧
        (∀ v ∈ l, hasPosition v = true → uavDistance a u ≤ uavDistance a v) ∧
        ((u = b) ∨
          (uavDistance a u < uavDistance a b ∧
           ∃ l1 l2, l = l1 ++ u :: l2 ∧
             ∀ v ∈ l1, hasPosition v = true →
               uavDistance a u < uavDistance a v)) := by
  intro l
  induction l with
  | nil =>
    intro b hb
    exact ⟨b, rfl, hb, by simp, Or.inl rfl⟩
  | cons x l ih =>
    intro b hb
    by_cases hx : hasPosition x = true
    · by_cases hlt : uavDistance a x < uavDistance a b
      · have hstep : fbStep a (some b, some (uavDistance a b)) x =
            (some x, some (uavDistance a x)) := by
          simp [fbStep, hx, hlt]
        obtain ⟨u, hu, hupos, hmin, hcase⟩ := ih x hx
        rw [List.foldl_cons, hstep]
        refine ⟨u, hu, hupos, ?_, ?_⟩
        · intro v hv hvpos
          rcases List.mem_cons.1 hv with rfl | hv
          · rcases hcase with rfl | ⟨hult, _⟩
            · exact le_refl _
            · exact le_of_lt hult
          · exact hmin v hv hvpos
        · rcases hcase with rfl | ⟨hult, l1, l2, hdecomp, hstrict⟩
          · exact Or.inr ⟨hlt, [], l, rfl, by simp⟩
          · refine Or.inr ⟨lt_trans hult hlt, x :: l1, l2, by simp [hdecomp], ?_⟩
            intro v hv hvpos
            rcases List.mem_cons.1 hv with rfl | hv
            · exact hult
            · exact hstrict v hv hvpos
      · have hstep : fbStep a (some b, some (uavDistance a b)) x =
            (some b, some (uavDistance a b)) := by
          simp [fbStep, hx, hlt]
        obtain ⟨u, hu, hupos, hmin, hcase⟩ := ih b hb
        rw [List.foldl_cons, hstep]
        refine ⟨u, hu, hupos, ?_, ?_⟩
        · intro v hv hvpos
          rcases List.mem_cons.1 hv with rfl | hv
          · rcases hcase with rfl | ⟨hult, _⟩
            · exact le_of_not_lt hlt
            · exact le_trans (le_of_lt hult) (le_of_not_lt hlt)
          · exact hmin v hv hvpos
        · rcases hcase with rfl | ⟨hult, l1, l2, hdecomp, hstrict⟩
          · exact Or.inl rfl
          · refine Or.inr ⟨hult, x :: l1, l2, by simp [hdecomp], ?_⟩
            intro v hv hvpos
            rcases List.mem_cons.1 hv with rfl | hv
            · exact lt_of_lt_of_le hult (le_of_not_lt hlt)
            · exact hstrict v hv hvpos
    · have hstep : fbStep a (some b, some (uavDistance a b)) x =
          (some b, some (uavDistance a b)) := by
        simp [fbStep, hx]
      obtain ⟨u, hu, hupos, hmin, hcase⟩ := ih b hb
      rw [List.foldl_cons, hstep]
      refine ⟨u, hu, hupos, ?_, ?_⟩
      · intro v hv hvpos
        rcases List.mem_cons.1 hv with rfl | hv
        · exact absurd hvpos hx
        · exact hmin v hv hvpos
      · rcases hcase with rfl | ⟨hult, l1, l2, hdecomp, hstrict⟩
        · exact Or.inl rfl
        · refine Or.inr ⟨hult, x :: l1, l2, by simp [hdecomp], ?_⟩
          intro v hv hvpos
          rcases List.mem_cons.1 hv with rfl | hv
          · exact absurd hvpos hx
          · exact hstrict v hv hvpos

/-- Claim C5 (amended): the selected UAV has truthy coordinates, attains
the minimum Haversine distance among such candidates, and is the first
candidate in snapshot order to attain it; ties are broken by list
position, not by battery or identifier. -/
theorem find_best_uav_first_min (a : SatelliteAlert) (l : List UAV) (u : UAV)
    (h : (find_best_uav a l).1 = some u) :
    hasPosition u = true ∧
    (∀ v ∈ l, hasPosition v = true → uavDistance a u ≤ uavDistance a v) ∧
    ∃ l1 l2, l = l1 ++ u :: l2 ∧
      ∀ v ∈ l1, hasPosition v = true →
        uavDistance a u < uavDistance a v := by
  induction l with
  | nil => simp [find_best_uav] at h
  | cons x l ih =>
    by_cases hx : hasPosition x = true
    · have hstep : fbStep a (none, none) x = (some x, some (uavDistance a x)) := by
        simp [fbStep, hx]
      rw [find_best_uav, List.foldl_cons, hstep] at h
      obtain ⟨u', hu', hupos, hmin, hcase⟩ := fbStep_fold_aux a l x hx
      rw [hu'] at h
      simp only [Option.some_inj] at h
      subst h
      refine ⟨hupos, ?_, ?_⟩
      · intro v hv hvpos
        rcases List.mem_cons.1 hv with rfl | hv
        · rcases hcase with rfl | ⟨hult, _⟩
          · exact le_refl _
          · exact le_of_lt hult
        · exact hmin v hv hvpos
      · rcases hcase with rfl | ⟨hult, l1, l2, hdecomp, hstrict⟩
        · exact ⟨[], l, rfl, by simp⟩
        · refine ⟨x :: l1, l2, by simp [hdecomp], ?_⟩
          intro v hv hvpos
          rcases List.mem_cons.1 hv with rfl | hv
          · exact hult
          · exact hstrict v hv hvpos
    · have hstep : fbStep a (none, none) x = (none, none) := by
        simp [fbStep, hx]
      rw [find_best_uav, List.foldl_cons, hstep] at h
      obtain ⟨hupos, hmin, l1, l2, hdecomp, hstrict⟩ := ih h
      refine ⟨hupos, ?_, x :: l1, l2, by simp [hdecomp], ?_⟩
      · intro v hv hvpos
        rcases List.mem_cons.1 hv with rfl | hv
        · exact absurd hvpos hx
        · exact hmin v hv hvpos
      · intro v hv hvpos
        rcases List.mem_cons.1 hv with rfl | hv
        · exact absurd hvpos hx
        · exact hstrict v hv hvpos

/-- The selection returns `none` exactly when no candidate has truthy
coordinates. -/
theorem find_best_uav_none_iff (a : SatelliteAlert) (l : List UAV) :
    (find_best_uav a l).1 = none ↔ ∀ v ∈ l, hasPosition v = false := by
  induction l with
  | nil => simp [find_best_uav]
  | cons x l ih =>
    by_cases hx : hasPosition x = true
    · have hstep : fbStep a (none, none) x = (some x, some (uavDistance a x)) := by
        simp [fbStep, hx]
      rw [find_best_uav, List.foldl_cons, hstep]
      obtain ⟨u', hu', _, _, _⟩ := fbStep_fold_aux a l x hx
      rw [hu']
      simp [hx]
    · have hstep : fbStep a (none, none) x = (none, none) := by
        simp [fbStep, hx]
      rw [find_best_uav, List.foldl_cons, hstep]
      rw [find_best_uav] at ih
      rw [ih]
      constructor
      · intro hall v hv
        rcases List.mem_cons.1 hv with rfl | hv
        · simpa using hx
        · exact hall v hv
      · intro hall v hv
        exact hall v (List.mem_cons_of_mem _ hv)

/-- `assignStep` on an empty pool is a no-op (the loop has broken). -/
theorem assignStep_pool_nil {st : TickResult} (a : SatelliteAlert)
    (h : st.pool = []) : assignStep st a = st := by
  unfold assignStep
  rw [if_pos h]

/-- `assignStep` with no selectable UAV is a no-op. -/
theorem assignStep_fb_none {st : TickResult} (a : SatelliteAlert)
    (h : st.pool ≠ []) (hfb : (find_best_uav a st.pool).1 = none) :
    assignStep st a = st := by
  unfold assignStep
  rw [if_neg h, hfb]

/-- `assignStep` with a selected UAV records the assignment, publishes
the command, and removes the UAV from the pool. -/
theorem assignStep_fb_some {st : TickResult} (a : SatelliteAlert)
    (best : UAV) (h : st.pool ≠ [])
    (hfb : (find_best_uav a st.pool).1 = some best) :
    assignStep st a =
      { assignments := st.assignments ++ [(a.id, best.id)],
        published := st.published ++
          [⟨best.id, a.id, a.latitude, a.longitude, a.alert_type, a.severity⟩],
        pool := st.pool.erase best } := by
  unfold assignStep
  rw [if_neg h, hfb]

/-- Every published mission command names a UAV drawn from the starting
pool that has truthy coordinates. -/
theorem assignLoop_published_pool (pending : List SatelliteAlert) :
    ∀ (st : TickResult), ∀ msg ∈ (pending.foldl assignStep st).published,
      msg ∈ st.published ∨
      ∃ u ∈ st.pool, hasPosition u = true ∧ msg.uav_id = u.id := by
  induction pending with
  | nil => intro st msg hmsg; exact Or.inl hmsg
  | cons a pending ih =>
    intro st msg hmsg
    rw [List.foldl_cons] at hmsg
    by_cases hpool : st.pool = []
    · rw [assignStep_pool_nil a hpool] at hmsg
      exact ih _ msg hmsg
    · rcases hfb : (find_best_uav a st.pool).1 with _ | best
      · rw [assignStep_fb_none a hpool hfb] at hmsg
        exact ih _ msg hmsg
      · rw [assignStep_fb_some a best hpool hfb] at hmsg
        rcases ih _ msg hmsg with hin | ⟨u, hupool, hupos, hid⟩
        · simp only [List.mem_append, List.mem_singleton] at hin
          rcases hin with hin | rfl
          · exact Or.inl hin
          · obtain ⟨hpos, _, l1, l2, hdecomp, _⟩ :=
              find_best_uav_first_min a st.pool best hfb
            exact Or.inr ⟨best, by simp [hdecomp], hpos, rfl⟩
        · refine Or.inr ⟨u, ?_, hupos, hid⟩
          have hupool2 : u ∈ st.pool.erase best := by simpa using hupool
          exact List.mem_of_mem_erase hupool2

/-- Published alert identifiers extend the incumbent list by a
subsequence of the pending queue's identifiers, in queue order. -/
theorem assignLoop_published_order (pending : List SatelliteAlert) :
    ∀ (st : TickResult), ∃ extra,
      ((pending.foldl assignStep st).published).map MissionMsg.alert_id =
        st.published.map MissionMsg.alert_id ++ extra ∧
      extra.Sublist (pending.map SatelliteAlert.id) := by
  induction pending with
  | nil => intro st; exact ⟨[], by simp, by simp⟩
  | cons a pending ih =>
    intro st
    rw [List.foldl_cons]
    by_cases hpool : st.pool = []
    · rw [assignStep_pool_nil a hpool]
      obtain ⟨extra, hmap, hsub⟩ := ih st
      exact ⟨extra, hmap, List.Sublist.cons _ hsub⟩
    · rcases hfb : (find_best_uav a st.pool).1 with _ | best
      · rw [assignStep_fb_none a hpool hfb]
        obtain ⟨extra, hmap, hsub⟩ := ih st
        exact ⟨extra, hmap, List.Sublist.cons _ hsub⟩
      · rw [assignStep_fb_some a best hpool hfb]
        obtain ⟨extra, hmap, hsub⟩ := ih _
        refine ⟨a.id :: extra, ?_, List.Sublist.cons₂ _ hsub⟩
        rw [hmap]
        simp

/-- A fold over an empty pool never assigns. -/
theorem foldl_assignStep_pool_nil (pending : List SatelliteAlert) :
    ∀ st : TickResult, st.pool = [] → pending.foldl assignStep st = st := by
  induction pending with
  | nil => intro st _; rfl
  | cons a pending ih =>
    intro st h
    rw [List.foldl_cons, assignStep_pool_nil a h]
    exact ih st h

/-- With an empty snapshot of available UAVs the loop result is empty. -/
theorem assignLoop_no_pool (pending : List SatelliteAlert) :
    assignLoop pending [] = ⟨[], [], []⟩ :=
  foldl_assignStep_pool_nil pending ⟨[], [], []⟩ rfl

/-- Claim C4 (amended): a UAV is eligible exactly when its status is
`"idle"` and its battery is strictly greater than 30; when no UAV is
eligible the tick leaves every alert and UAV row unchanged and publishes
nothing. -/
theorem scheduler_no_eligible_uav (alerts : List SatelliteAlert)
    (uavs : List UAV)
    (h : ∀ u ∈ uavs, ¬(u.status = "idle" ∧ 30 < u.battery_level)) :
    (∀ u : UAV,
      (u ∈ uavs.filter (fun u =>
          u.status == "idle" && decide (u.battery_level > 30))) ↔
        (u ∈ uavs ∧ u.status = "idle" ∧ 30 < u.battery_level)) ∧
    process_pending_alerts alerts uavs = (alerts, uavs, []) := by
  have hchar : ∀ u : UAV,
      (u ∈ uavs.filter (fun u =>
          u.status == "idle" && decide (u.battery_level > 30))) ↔
        (u ∈ uavs ∧ u.status = "idle" ∧ 30 < u.battery_level) := by
    intro u
    simp [List.mem_filter, gt_iff_lt, and_assoc]
  refine ⟨hchar, ?_⟩
  have havail : uavs.filter (fun u =>
      u.status == "idle" && decide (u.battery_level > 30)) = [] := by
    rw [List.filter_eq_nil_iff]
    intro u hu
    have hne := h u hu
    simp only [Bool.and_eq_true, beq_iff_eq, decide_eq_true_eq, gt_iff_lt]
    tauto
  simp only [process_pending_alerts]
  rw [havail, assignLoop_no_pool]
  simp [List.lookup]

/-- Witness for C4 (amended): a charging UAV is ineligible and the tick
is a no-op. -/
theorem scheduler_no_eligible_uav_witness :
    (∀ u : UAV,
      (u ∈ [uavCharging].filter (fun u =>
          u.status == "idle" && decide (u.battery_level > 30))) ↔
        (u ∈ [uavCharging] ∧ u.status = "idle" ∧ 30 < u.battery_level)) ∧
    process_pending_alerts [alertLow] [uavCharging] =
      ([alertLow], [uavCharging], []) :=
  scheduler_no_eligible_uav [alertLow] [uavCharging]
    (by
      intro u hu
      simp only [List.mem_singleton] at hu
      subst hu
      simp [uavCharging])

/-- Claim C4 counterexample: an idle UAV with battery exactly 30 — which
the claim calls eligible — is not selected; the alert stays pending and
nothing is published. -/
theorem scheduler_battery_boundary_counterexample :
    process_pending_alerts [alertLow] [uavBattery30] =
      ([alertLow], [uavBattery30], []) ∧
    uavBattery30.status = "idle" ∧ uavBattery30.battery_level = 30 ∧
    alertLow.status = "pending" := by
  refine ⟨?_, rfl, rfl, rfl⟩
  have h30 : ¬((30:ℚ) < 30) := lt_irrefl 30
  have havail : [uavBattery30].filter (fun u =>
      u.status == "idle" && decide (u.battery_level > 30)) = [] := by
    simp [uavBattery30]
  simp only [process_pending_alerts]
  rw [havail, assignLoop_no_pool]
  simp [List.lookup]

/-- Claim C1 counterexample: two pending alerts, the first low-severity
and the second critical, with one eligible UAV: the tick assigns the UAV
to the first-enqueued (low) alert and leaves the critical one pending. -/
theorem scheduler_queue_order_counterexample :
    (process_pending_alerts [alertLow, alertCritical] [uavIdle]).2.2 =
      [⟨7, 1, 10, 10, "fire", "low"⟩] ∧
    (process_pending_alerts [alertLow, alertCritical] [uavIdle]).1.map
        SatelliteAlert.status = ["assigned", "pending"] := by
  constructor <;>
    · norm_num [process_pending_alerts, assignLoop, assignStep, find_best_uav,
        fbStep, hasPosition, qTruthy, alertLow, alertCritical, uavIdle,
        List.lookup, List.erase, List.filter]
      try rfl

/-- Claim C1 (amended): pending alerts are considered in stored queue
order — the published commands' alert identifiers form a subsequence of
the pending queue's identifiers in that order, with no reordering by
priority or severity — and in the two-alert scenario the UAV goes to the
first-enqueued, low-severity alert. -/
theorem scheduler_queue_order (alerts : List SatelliteAlert)
    (uavs : List UAV) :
    ((process_pending_alerts alerts uavs).2.2.map MissionMsg.alert_id).Sublist
      ((alerts.filter (fun a => a.status == "pending")).map
        SatelliteAlert.id) ∧
    (process_pending_alerts [alertLow, alertCritical] [uavIdle]).2.2.map
        MissionMsg.alert_id = [alertLow.id] := by
  constructor
  · have hmain : (process_pending_alerts alerts uavs).2.2 =
        (assignLoop (alerts.filter (fun a => a.status == "pending"))
          (uavs.filter (fun u =>
            u.status == "idle" && decide (u.battery_level > 30)))).published := by
      simp only [process_pending_alerts]
    rw [hmain, assignLoop]
    obtain ⟨extra, hmap, hsub⟩ := assignLoop_published_order
      (alerts.filter (fun a => a.status == "pending"))
      ⟨[], [], uavs.filter (fun u =>
        u.status == "idle" && decide (u.battery_level > 30))⟩
    rw [hmap]
    simpa using hsub
  · norm_num [process_pending_alerts, assignLoop, assignStep, find_best_uav,
      fbStep, hasPosition, qTruthy, alertLow, alertCritical, uavIdle,
      List.lookup, List.erase, List.filter]

/-- Claim C5 counterexample: two candidates at the same stored position
(hence equal Haversine distance); the code keeps the first-listed,
lower-battery UAV, while the claim requires the higher-battery one. -/
theorem scheduler_tie_break_counterexample :
    (process_pending_alerts [alertLow]
        [uavNearLowBattery, uavNearHighBattery]).2.2.map
        MissionMsg.uav_id = [uavNearLowBattery.id] ∧
    uavDistance alertLow uavNearLowBattery =
      uavDistance alertLow uavNearHighBattery ∧
    uavNearLowBattery.battery_level < uavNearHighBattery.battery_level := by
  refine ⟨?_, rfl, by norm_num [uavNearLowBattery, uavNearHighBattery]⟩
  norm_num [process_pending_alerts, assignLoop, assignStep, find_best_uav,
    fbStep, hasPosition, qTruthy, alertLow, uavNearLowBattery,
    uavNearHighBattery, uavDistance, List.lookup, List.erase, List.filter]
  rfl

/-- Witness for C5 (amended) on a single-candidate pool. -/
theorem find_best_uav_first_min_witness :
    hasPosition uavIdle = true ∧
    (∀ v ∈ [uavIdle], hasPosition v = true →
      uavDistance alertLow uavIdle ≤ uavDistance alertLow v) ∧
    ∃ l1 l2, [uavIdle] = l1 ++ uavIdle :: l2 ∧
      ∀ v ∈ l1, hasPosition v = true →
        uavDistance alertLow uavIdle < uavDistance alertLow v :=
  find_best_uav_first_min alertLow [uavIdle] uavIdle
    (by norm_num [find_best_uav, fbStep, hasPosition, qTruthy, uavIdle])

/-- Claim C9: every mission command published by a tick names a UAV that
was idle with battery above 30 and both stored coordinates truthy
(non-null and non-zero); a UAV with a null or zero coordinate is never
selected. -/
theorem scheduler_selected_has_position (alerts : List SatelliteAlert)
    (uavs : List UAV) :
    ∀ msg ∈ (process_pending_alerts alerts uavs).2.2,
      ∃ u ∈ uavs, msg.uav_id = u.id ∧ u.status = "idle" ∧
        30 < u.battery_level ∧ qTruthy u.current_latitude = true ∧
        qTruthy u.current_longitude = true := by
  intro msg hmsg
  have hmain : (process_pending_alerts alerts uavs).2.2 =
      (assignLoop (alerts.filter (fun a => a.status == "pending"))
        (uavs.filter (fun u =>
          u.status == "idle" && decide (u.battery_level > 30)))).published := by
    simp only [process_pending_alerts]
  rw [hmain, assignLoop] at hmsg
  rcases assignLoop_published_pool _ _ msg hmsg with habs | ⟨u, hu, hupos, hid⟩
  · simp at habs
  · simp only [List.mem_filter, Bool.and_eq_true, beq_iff_eq,
      decide_eq_true_eq, gt_iff_lt] at hu
    refine ⟨u, hu.1, hid, hu.2.1, hu.2.2, ?_, ?_⟩ <;>
      · have := hupos
        unfold hasPosition at this
        simp only [Bool.and_eq_true] at this
        tauto

/-- Witness for C9 on the concrete two-alert scenario. -/
theorem scheduler_selected_has_position_witness :
    ∃ u ∈ [uavIdle],
      (⟨7, 1, 10, 10, "fire", "low"⟩ : MissionMsg).uav_id = u.id ∧
      u.status = "idle" ∧ 30 < u.battery_level ∧
      qTruthy u.current_latitude = true ∧
      qTruthy u.current_longitude = true :=
  scheduler_selected_has_position [alertLow, alertCritical] [uavIdle]
    ⟨7, 1, 10, 10, "fire", "low"⟩
    (by
      norm_num [process_pending_alerts, assignLoop, assignStep,
        find_best_uav, fbStep, hasPosition, qTruthy, alertLow,
        alertCritical, uavIdle, List.lookup, List.erase, List.filter])


/-! ## Theorems: A* pathfinder -/

/-- Unfolding lookup over a cons cell. -/
theorem lookup_cons {α : Type} (p : Cell × α) (m : List (Cell × α))
    (c : Cell) :
    (p :: m).lookup c = if c = p.1 then some p.2 else m.lookup c := by
  rw [List.lookup]
  by_cases h : c = p.1
  · have hb : (c == p.1) = true := by simpa using h
    rw [hb, if_pos h]
  · have hb : (c == p.1) = false := by simpa using h
    rw [hb, if_neg h]

/-- Lookup after a write at the written key. -/
theorem lookup_setKey_self {α : Type} (m : List (Cell × α)) (k : Cell)
    (v : α) : (setKey m k v).lookup k = some v := by
  induction m with
  | nil => simp [setKey, List.lookup]
  | cons p m ih =>
    rw [setKey]
    split
    · rw [lookup_cons, if_pos rfl]
    · rename_i hp
      rw [lookup_cons, if_neg (fun h => hp h.symm)]
      exact ih

/-- Lookup after a write at a different key. -/
theorem lookup_setKey_ne {α : Type} (m : List (Cell × α)) (k c : Cell)
    (v : α) (h : c ≠ k) : (setKey m k v).lookup c = m.lookup c := by
  induction m with
  | nil =>
    rw [setKey, lookup_cons, if_neg h]
  | cons p m ih =>
    rw [setKey]
    split
    · rename_i hp
      rw [lookup_cons, lookup_cons]
      have hck : ¬c = (k, v).1 := h
      have hcp : ¬c = p.1 := by rw [hp]; exact h
      rw [if_neg hck, if_neg hcp]
    · rw [lookup_cons, lookup_cons]
      by_cases hc : c = p.1
      · rw [if_pos hc, if_pos hc]
      · rw [if_neg hc, if_neg hc]
        exact ih

/-- Keys after a write: unchanged when present, extended when absent. -/
theorem mapKeys_setKey {α : Type} (m : List (Cell × α)) (k : Cell) (v : α) :
    (k ∈ mapKeys m → mapKeys (setKey m k v) = mapKeys m) ∧
    (k ∉ mapKeys m → mapKeys (setKey m k v) = mapKeys m ++ [k]) := by
  induction m with
  | nil => simp [setKey, mapKeys]
  | cons p m ih =>
    rw [setKey]
    split
    · rename_i hp
      constructor
      · intro _
        simp [mapKeys, hp]
      · intro habs
        exact absurd (by simp [mapKeys, hp]) habs
    · rename_i hp
      constructor
      · intro hk
        have hk' : k ∈ mapKeys m := by
          rcases (by simpa [mapKeys] using hk : k = p.1 ∨ k ∈ mapKeys m) with h | h
          · exact absurd h.symm hp
          · exact h
        simp only [mapKeys, List.map_cons]
        rw [show List.map Prod.fst (setKey m k v) = mapKeys (setKey m k v)
          from rfl, ih.1 hk']
        rfl
      · intro hk
        have hk' : k ∉ mapKeys m := by
          intro h
          exact hk (by simp [mapKeys] at h ⊢; tauto)
        simp only [mapKeys, List.map_cons]
        rw [show List.map Prod.fst (setKey m k v) = mapKeys (setKey m k v)
          from rfl, ih.2 hk']
        rfl

/-- Membership in keys is equivalent to a successful lookup. -/
theorem lookup_isSome_iff {α : Type} (m : List (Cell × α)) (c : Cell) :
    (∃ v, m.lookup c = some v) ↔ c ∈ mapKeys m := by
  induction m with
  | nil => simp [mapKeys, List.lookup]
  | cons p m ih =>
    rw [lookup_cons]
    by_cases hp : c = p.1
    · rw [if_pos hp]
      simp [mapKeys, hp]
    · rw [if_neg hp]
      simp only [mapKeys, List.map_cons, List.mem_cons]
      rw [show List.map Prod.fst m = mapKeys m from rfl]
      constructor
      · intro h
        exact Or.inr (ih.1 h)
      · rintro (h | h)
        · exact absurd h hp
        · exact ih.2 h

/-- A `none` lookup means the key is absent. -/
theorem lookup_eq_none_iff {α : Type} (m : List (Cell × α)) (c : Cell) :
    m.lookup c = none ↔ c ∉ mapKeys m := by
  rcases h : m.lookup c with _ | v
  · simp only [true_iff]
    intro hmem
    obtain ⟨v, hv⟩ := (lookup_isSome_iff m c).2 hmem
    rw [h] at hv
    cases hv
  · constructor
    · intro habs
      cases habs
    · intro hmem
      exact absurd ((lookup_isSome_iff m c).1 ⟨v, h⟩) hmem

/-- Nodup keys survive a write. -/
theorem nodup_setKey {α : Type} (m : List (Cell × α)) (k : Cell) (v : α)
    (h : (mapKeys m).Nodup) : (mapKeys (setKey m k v)).Nodup := by
  by_cases hk : k ∈ mapKeys m
  · rw [(mapKeys_setKey m k v).1 hk]
    exact h
  · rw [(mapKeys_setKey m k v).2 hk]
    rw [List.nodup_append]
    exact ⟨h, List.nodup_singleton k, by simpa using hk⟩

/-- Length of the cost map after a write. -/
theorem length_setKey {α : Type} (m : List (Cell × α)) (k : Cell) (v : α) :
    (k ∈ mapKeys m → (setKey m k v).length = m.length) ∧
    (k ∉ mapKeys m → (setKey m k v).length = m.length + 1) := by
  have h1 : (setKey m k v).length = (mapKeys (setKey m k v)).length := by
    simp [mapKeys]
  have h2 : m.length = (mapKeys m).length := by simp [mapKeys]
  constructor
  · intro hk
    rw [h1, h2, (mapKeys_setKey m k v).1 hk]
  · intro hk
    rw [h1, h2, (mapKeys_setKey m k v).2 hk]
    simp

/-- Sum of stored values after a replacing write (deduplicated keys). -/
theorem sum_setKey_mem (m : List (Cell × ℕ)) (k : Cell) (v old : ℕ)
    (hnd : (mapKeys m).Nodup) (hold : m.lookup k = some old) :
    ((setKey m k v).map Prod.snd).sum + old = (m.map Prod.snd).sum + v := by
  induction m with
  | nil => simp [List.lookup] at hold
  | cons p m ih =>
    rw [lookup_cons] at hold
    rw [setKey]
    split
    · rename_i hp
      rw [if_pos (by rw [hp]) ] at hold
      rw [Option.some_inj] at hold
      subst hold
      simp [Nat.add_comm, Nat.add_assoc, Nat.add_left_comm]
    · rename_i hp
      rw [if_neg (fun h => hp h.symm)] at hold
      simp only [mapKeys, List.map_cons, List.nodup_cons] at hnd
      have := ih hnd.2 hold
      simp only [List.map_cons, List.sum_cons]
      omega

/-- Sum of stored values after an inserting write. -/
theorem sum_setKey_new (m : List (Cell × ℕ)) (k : Cell) (v : ℕ)
    (hnew : k ∉ mapKeys m) :
    ((setKey m k v).map Prod.snd).sum = (m.map Prod.snd).sum + v := by
  induction m with
  | nil => simp [setKey]
  | cons p m ih =>
    simp only [mapKeys, List.map_cons, List.mem_cons] at hnew
    push_neg at hnew
    rw [setKey, if_neg (fun h => hnew.1 h.symm)]
    simp only [List.map_cons, List.sum_cons]
    rw [show List.map Prod.fst m = mapKeys m from rfl] at hnew
    rw [ih hnew.2]
    omega

/-- The chosen element of the frontier scan is among the candidates. -/
theorem foldl_pick_mem (l : List Entry) (a : Entry) :
    l.foldl (fun best x => if entryLtB x best then x else best) a ∈
      a :: l := by
  induction l generalizing a with
  | nil => simp
  | cons x l ih =>
    rw [List.foldl_cons]
    rcases List.mem_cons.1 (ih (if entryLtB x a then x else a)) with h | h
    · rw [h]
      split
      · simp
      · simp
    · simp [h]

/-- `popMin` on an empty frontier. -/
theorem popMin_nil : popMin [] = none := rfl

/-- `popMin` succeeds exactly on a nonempty frontier. -/
theorem popMin_eq_none_iff (l : List Entry) : popMin l = none ↔ l = [] := by
  cases l with
  | nil => simp [popMin]
  | cons e rest => simp [popMin]

/-- What `popMin` returns: a member, and the frontier with one copy of it
removed. -/
theorem popMin_spec (l : List Entry) (e : Entry) (rest : List Entry)
    (h : popMin l = some (e, rest)) :
    e ∈ l ∧ rest = l.erase e := by
  cases l with
  | nil => simp [popMin] at h
  | cons x xs =>
    rw [popMin] at h
    simp only [Option.some_inj, Prod.mk.injEq] at h
    obtain ⟨he, hrest⟩ := h
    subst he
    refine ⟨?_, hrest.symm⟩
    exact foldl_pick_mem xs x

/-- Frontier length decreases by one at a pop. -/
theorem popMin_length (l : List Entry) (e : Entry) (rest : List Entry)
    (h : popMin l = some (e, rest)) : rest.length + 1 = l.length := by
  obtain ⟨hmem, hrest⟩ := popMin_spec l e rest h
  rw [hrest, List.length_erase_of_mem hmem]
  have : l.length ≠ 0 := by
    intro habs
    rw [List.length_eq_zero] at habs
    subst habs
    cases hmem
  omega

/-- Every frontier entry is the popped one or survives in the rest. -/
theorem popMin_mem_split (l : List Entry) (e : Entry) (rest : List Entry)
    (h : popMin l = some (e, rest)) :
    ∀ x ∈ l, x = e ∨ x ∈ rest := by
  obtain ⟨hmem, hrest⟩ := popMin_spec l e rest h
  intro x hx
  by_cases hxe : x = e
  · exact Or.inl hxe
  · right
    rw [hrest]
    exact (List.mem_erase_of_ne hxe).2 hx

/-- Unfolding membership in the neighbour list: every neighbour is
in-bounds, unblocked and distinct from the centre. -/
theorem mem_get_neighbors (W H : ℤ) (obstacles : List Cell)
    (pos n : Cell) (h : n ∈ get_neighbors W H obstacles pos) :
    (0 ≤ n.1 ∧ n.1 < W ∧ 0 ≤ n.2 ∧ n.2 < H ∧ n ∉ obstacles) ∧ n ≠ pos := by
  simp only [get_neighbors, List.mem_flatMap, List.mem_filterMap] at h
  obtain ⟨dx, hdx, dy, hdy, hif⟩ := h
  split at hif
  · cases hif
  · rename_i hzero
    split at hif
    · rename_i hcond
      rw [Option.some_inj] at hif
      subst hif
      refine ⟨hcond, ?_⟩
      intro habs
      apply hzero
      have h1 : pos.1 + dx = pos.1 := congrArg Prod.fst habs
      have h2 : pos.2 + dy = pos.2 := congrArg Prod.snd habs
      omega
    · cases hif

/-- A step costs at least five fifths (one cardinal move). -/
theorem step_cost_u_ge (a b : Cell) : 5 ≤ step_cost_u a b := by
  unfold step_cost_u
  split <;> omega

/-- A step costs at most seven fifths (one diagonal move). -/
theorem step_cost_u_le (a b : Cell) : step_cost_u a b ≤ 7 := by
  unfold step_cost_u
  split <;> omega


/-- The key set of an invariant state has at most `W·H + 1` cells. -/
theorem keys_length_le (W H : ℤ) (obstacles : List Cell) (start : Cell)
    (st : AState) (hnd : (mapKeys st.cost_so_far).Nodup)
    (hgrid : ∀ c ∈ mapKeys st.cost_so_far, c = start ∨
      (0 ≤ c.1 ∧ c.1 < W ∧ 0 ≤ c.2 ∧ c.2 < H ∧ c ∉ obstacles)) :
    (mapKeys st.cost_so_far).length ≤ gridCells W H + 1 := by
  classical
  set keys := mapKeys st.cost_so_far with hk
  set S : Finset Cell :=
    insert start ((Finset.Icc (0:ℤ) (W-1)) ×ˢ (Finset.Icc (0:ℤ) (H-1)))
    with hS
  have hsub : keys.toFinset ⊆ S := by
    intro c hc
    rw [List.mem_toFinset] at hc
    rcases hgrid c hc with rfl | ⟨h1, h2, h3, h4, _⟩
    · exact Finset.mem_insert_self _ _
    · refine Finset.mem_insert_of_mem ?_
      rw [Finset.mem_product, Finset.mem_Icc, Finset.mem_Icc]
      omega
  have hcard : keys.toFinset.card = keys.length := List.toFinset_card_of_nodup hnd
  have hScard : S.card ≤ gridCells W H + 1 := by
    have hprod : ((Finset.Icc (0:ℤ) (W-1)) ×ˢ (Finset.Icc (0:ℤ) (H-1))).card =
        gridCells W H := by
      rw [Finset.card_product, Int.card_Icc, Int.card_Icc]
      unfold gridCells
      congr 1 <;> omega
    calc S.card ≤ ((Finset.Icc (0:ℤ) (W-1)) ×ˢ (Finset.Icc (0:ℤ) (H-1))).card + 1 :=
          Finset.card_insert_le _ _
      _ ≤ gridCells W H + 1 := by rw [hprod]
  calc keys.length = keys.toFinset.card := hcard.symm
    _ ≤ S.card := Finset.card_le_card hsub
    _ ≤ gridCells W H + 1 := hScard

/-- `relaxStep` on an unvisited neighbour: push, set parent, set cost. -/
theorem relaxStep_new (goal current : Cell) (st : AState) (next : Cell)
    (gcur : ℕ) (hg : st.cost_so_far.lookup current = some gcur)
    (hl : st.cost_so_far.lookup next = none) :
    relaxStep goal current st next =
      ⟨((gcur + step_cost_u current next, hrad next goal), next) ::
          st.frontier,
        setKey st.came_from next (some current),
        setKey st.cost_so_far next (gcur + step_cost_u current next)⟩ := by
  unfold relaxStep
  rw [hg, hl]
  rfl

/-- `relaxStep` on a strictly improved neighbour. -/
theorem relaxStep_improve (goal current : Cell) (st : AState) (next : Cell)
    (gcur old : ℕ) (hg : st.cost_so_far.lookup current = some gcur)
    (hl : st.cost_so_far.lookup next = some old)
    (hlt : gcur + step_cost_u current next < old) :
    relaxStep goal current st next =
      ⟨((gcur + step_cost_u current next, hrad next goal), next) ::
          st.frontier,
        setKey st.came_from next (some current),
        setKey st.cost_so_far next (gcur + step_cost_u current next)⟩ := by
  unfold relaxStep
  rw [hg, hl]
  simp [hlt]

/-- `relaxStep` on a neighbour that does not improve: no change. -/
theorem relaxStep_keep (goal current : Cell) (st : AState) (next : Cell)
    (gcur old : ℕ) (hg : st.cost_so_far.lookup current = some gcur)
    (hl : st.cost_so_far.lookup next = some old)
    (hge : ¬ gcur + step_cost_u current next < old) :
    relaxStep goal current st next = st := by
  unfold relaxStep
  rw [hg, hl]
  simp [hge]

/-- One relaxation preserves the core invariant, keeps old frontier
entries, puts the neighbour into the key set, grows the key set
monotonically, and does not increase the potential. -/
theorem relaxStep_core (W H : ℤ) (obstacles : List Cell)
    (start goal current : Cell) (st : AState) (next : Cell)
    (hnext : next ∈ get_neighbors W H obstacles current)
    (hcur : current ∈ mapKeys st.cost_so_far)
    (base : AInvCore W H obstacles start st) :
    AInvCore W H obstacles start (relaxStep goal current st next) ∧
    (∀ e ∈ st.frontier, e ∈ (relaxStep goal current st next).frontier) ∧
    next ∈ mapKeys (relaxStep goal current st next).cost_so_far ∧
    (∀ c ∈ mapKeys st.cost_so_far,
      c ∈ mapKeys (relaxStep goal current st next).cost_so_far) ∧
    potential W H (relaxStep goal current st next) ≤ potential W H st := by
  obtain ⟨gcur, hgcur⟩ := (lookup_isSome_iff _ _).2 hcur
  have hgb := base.cost_bound current gcur hgcur
  have hne : next ≠ current := (mem_get_neighbors W H obstacles _ _ hnext).2
  have hsge := step_cost_u_ge current next
  have hsle := step_cost_u_le current next
  have hstart_mem : start ∈ mapKeys st.cost_so_far :=
    (lookup_isSome_iff _ _).1 ⟨0, base.start_cost⟩
  have hstart_mem_cf : start ∈ mapKeys st.came_from := by
    rw [base.same]; exact hstart_mem
  rcases hlook : st.cost_so_far.lookup next with _ | old
  -- new key
  · have hnotmem : next ∉ mapKeys st.cost_so_far :=
      (lookup_eq_none_iff _ _).1 hlook
    have hnotmem_cf : next ∉ mapKeys st.came_from := by
      rw [base.same]; exact hnotmem
    have hres := relaxStep_new goal current st next gcur hgcur hlook
    set nc := gcur + step_cost_u current next with hnc
    have hkeys : mapKeys (relaxStep goal current st next).cost_so_far =
        mapKeys st.cost_so_far ++ [next] := by
      rw [hres]
      exact (mapKeys_setKey st.cost_so_far next nc).2 hnotmem
    have hkeys_cf : mapKeys (relaxStep goal current st next).came_from =
        mapKeys st.came_from ++ [next] := by
      rw [hres]
      exact (mapKeys_setKey st.came_from next (some current)).2 hnotmem_cf
    have hlen : (relaxStep goal current st next).cost_so_far.length =
        st.cost_so_far.length + 1 := by
      rw [hres]
      exact (length_setKey st.cost_so_far next nc).2 hnotmem
    have hkeyslen : (mapKeys (relaxStep goal current st next).cost_so_far).length =
        (mapKeys st.cost_so_far).length + 1 := by
      rw [hkeys]; simp
    have hnext_start : next ≠ start := fun h => hnotmem (h ▸ hstart_mem)
    have hcore : AInvCore W H obstacles start (relaxStep goal current st next) := by
      refine ⟨?_, ?_, ?_, ?_, ?_, ?_, ?_, ?_, ?_, ?_⟩
      · rw [hres]
        exact nodup_setKey _ _ _ base.nodup
      · rw [hkeys, hkeys_cf, base.same]
      · rw [hres]
        simpa using (lookup_setKey_ne st.cost_so_far next start nc
          hnext_start.symm).symm ▸ base.start_cost
      · rw [hres]
        simpa using (lookup_setKey_ne st.came_from next start (some current)
          hnext_start.symm).symm ▸ base.start_parent
      · intro c hc
        rw [hkeys, List.mem_append, List.mem_singleton] at hc
        rcases hc with hc | rfl
        · exact base.grid c hc
        · exact Or.inr (mem_get_neighbors W H obstacles _ _ hnext).1
      · intro c hc
        rw [hkeys, List.mem_append, List.mem_singleton] at hc
        rcases hc with hc | rfl
        · exact base.reach c hc
        · exact Relation.ReflTransGen.tail (base.reach current hcur) hnext
      · intro e he
        rw [hkeys]
        rw [hres] at he
        simp only [List.mem_cons] at he
        rcases he with rfl | he
        · simp
        · simp only [List.mem_append]
          exact Or.inl (base.frontier_keys e he)
      · intro c pc hcp
        rw [hres] at hcp ⊢
        by_cases hcn : c = next
        · subst hcn
          rw [lookup_setKey_self] at hcp
          rw [Option.some_inj, Option.some_inj] at hcp
          subst hcp
          refine ⟨hnext, nc, gcur, lookup_setKey_self _ _ _, ?_, by omega⟩
          rw [lookup_setKey_ne _ _ _ _ (Ne.symm hne)]
          exact hgcur
        · rw [lookup_setKey_ne _ _ _ _ hcn] at hcp
          obtain ⟨hedge, gc, gp, hgc, hgp, hineq⟩ := base.parent_edge c pc hcp
          have hpc_mem : pc ∈ mapKeys st.cost_so_far :=
            (lookup_isSome_iff _ _).1 ⟨gp, hgp⟩
          have hpcn : pc ≠ next := fun h => hnotmem (h ▸ hpc_mem)
          exact ⟨hedge, gc, gp,
            by rw [lookup_setKey_ne _ _ _ _ hcn]; exact hgc,
            by rw [lookup_setKey_ne _ _ _ _ hpcn]; exact hgp, hineq⟩
      · intro c hcp
        rw [hres] at hcp
        by_cases hcn : c = next
        · subst hcn
          rw [lookup_setKey_self] at hcp
          cases hcp
        · rw [lookup_setKey_ne _ _ _ _ hcn] at hcp
          exact base.parent_none c hcp
      · intro c g hg
        rw [hres] at hg
        rw [hkeyslen]
        by_cases hcn : c = next
        · subst hcn
          rw [lookup_setKey_self, Option.some_inj] at hg
          omega
        · rw [lookup_setKey_ne _ _ _ _ hcn] at hg
          have := base.cost_bound c g hg
          omega
    refine ⟨hcore, ?_, ?_, ?_, ?_⟩
    · intro e he
      rw [hres]
      exact List.mem_cons_of_mem _ he
    · rw [hkeys]
      simp
    · intro c hc
      rw [hkeys]
      simp only [List.mem_append]
      exact Or.inl hc
    · -- potential does not increase on an insert
      have hsum : ((relaxStep goal current st next).cost_so_far.map
          Prod.snd).sum = (st.cost_so_far.map Prod.snd).sum + nc := by
        rw [hres]
        exact sum_setKey_new st.cost_so_far next nc hnotmem
      have hfront : (relaxStep goal current st next).frontier.length =
          st.frontier.length + 1 := by
        rw [hres]
        simp
      have hlenle : st.cost_so_far.length + 1 ≤ gridCells W H + 1 := by
        have h1 := keys_length_le W H obstacles start
          (relaxStep goal current st next) hcore.nodup hcore.grid
        rw [hkeyslen] at h1
        have h2 : (mapKeys st.cost_so_far).length = st.cost_so_far.length := by
          simp [mapKeys]
        omega
      have hncle : nc ≤ 7 * (gridCells W H + 1) := by
        have h2 : (mapKeys st.cost_so_far).length = st.cost_so_far.length := by
          simp [mapKeys]
        omega
      unfold potential
      rw [hsum, hfront, hlen]
      have hstep1 : gridCells W H + 1 - st.cost_so_far.length =
          (gridCells W H + 1 - (st.cost_so_far.length + 1)) + 1 := by
        omega
      have hmul : (gridCells W H + 1 - st.cost_so_far.length) *
            (7 * (gridCells W H + 1) + 2) =
          (gridCells W H + 1 - (st.cost_so_far.length + 1)) *
            (7 * (gridCells W H + 1) + 2) +
            (7 * (gridCells W H + 1) + 2) := by
        rw [hstep1]
        ring
      rw [hmul]
      set A := (gridCells W H + 1 - (st.cost_so_far.length + 1)) *
        (7 * (gridCells W H + 1) + 2) with hA
      omega
  -- existing key
  · by_cases hlt : gcur + step_cost_u current next < old
    · have hres := relaxStep_improve goal current st next gcur old hgcur hlook hlt
      set nc := gcur + step_cost_u current next with hnc
      have hmem : next ∈ mapKeys st.cost_so_far :=
        (lookup_isSome_iff _ _).1 ⟨old, hlook⟩
      have hmem_cf : next ∈ mapKeys st.came_from := by
        rw [base.same]; exact hmem
      have hkeys : mapKeys (relaxStep goal current st next).cost_so_far =
          mapKeys st.cost_so_far := by
        rw [hres]
        exact (mapKeys_setKey st.cost_so_far next nc).1 hmem
      have hkeys_cf : mapKeys (relaxStep goal current st next).came_from =
          mapKeys st.came_from := by
        rw [hres]
        exact (mapKeys_setKey st.came_from next (some current)).1 hmem_cf
      have hlen : (relaxStep goal current st next).cost_so_far.length =
          st.cost_so_far.length := by
        rw [hres]
        exact (length_setKey st.cost_so_far next nc).1 hmem
      have hnext_start : next ≠ start := by
        intro h
        subst h
        rw [base.start_cost, Option.some_inj] at hlook
        omega
      have hcore : AInvCore W H obstacles start (relaxStep goal current st next) := by
        refine ⟨?_, ?_, ?_, ?_, ?_, ?_, ?_, ?_, ?_, ?_⟩
        · rw [hres]
          exact nodup_setKey _ _ _ base.nodup
        · rw [hkeys, hkeys_cf, base.same]
        · rw [hres]
          simpa using (lookup_setKey_ne st.cost_so_far next start nc
            hnext_start.symm).symm ▸ base.start_cost
        · rw [hres]
          simpa using (lookup_setKey_ne st.came_from next start (some current)
            hnext_start.symm).symm ▸ base.start_parent
        · intro c hc
          rw [hkeys] at hc
          exact base.grid c hc
        · intro c hc
          rw [hkeys] at hc
          exact base.reach c hc
        · intro e he
          rw [hkeys]
          rw [hres] at he
          simp only [List.mem_cons] at he
          rcases he with rfl | he
          · exact hmem
          · exact base.frontier_keys e he
        · intro c pc hcp
          rw [hres] at hcp ⊢
          by_cases hcn : c = next
          · subst hcn
            rw [lookup_setKey_self, Option.some_inj, Option.some_inj] at hcp
            subst hcp
            refine ⟨hnext, nc, gcur, lookup_setKey_self _ _ _, ?_, by omega⟩
            rw [lookup_setKey_ne _ _ _ _ (Ne.symm hne)]
            exact hgcur
          · rw [lookup_setKey_ne _ _ _ _ hcn] at hcp
            obtain ⟨hedge, gc, gp, hgc, hgp, hineq⟩ := base.parent_edge c pc hcp
            by_cases hpcn : pc = next
            · subst hpcn
              rw [hlook, Option.some_inj] at hgp
              subst hgp
              exact ⟨hedge, gc, nc,
                by rw [lookup_setKey_ne _ _ _ _ hcn]; exact hgc,
                lookup_setKey_self _ _ _, by omega⟩
            · exact ⟨hedge, gc, gp,
                by rw [lookup_setKey_ne _ _ _ _ hcn]; exact hgc,
                by rw [lookup_setKey_ne _ _ _ _ hpcn]; exact hgp, hineq⟩
        · intro c hcp
          rw [hres] at hcp
          by_cases hcn : c = next
          · subst hcn
            rw [lookup_setKey_self] at hcp
            cases hcp
          · rw [lookup_setKey_ne _ _ _ _ hcn] at hcp
            exact base.parent_none c hcp
        · intro c g hg
          rw [hres] at hg
          rw [hkeys]
          by_cases hcn : c = next
          · subst hcn
            rw [lookup_setKey_self, Option.some_inj] at hg
            have := base.cost_bound _ old hlook
            omega
          · rw [lookup_setKey_ne _ _ _ _ hcn] at hg
            exact base.cost_bound c g hg
      refine ⟨hcore, ?_, ?_, ?_, ?_⟩
      · intro e he
        rw [hres]
        exact List.mem_cons_of_mem _ he
      · rw [hkeys]
        exact hmem
      · intro c hc
        rw [hkeys]
        exact hc
      · have hsum : ((relaxStep goal current st next).cost_so_far.map
            Prod.snd).sum + old = (st.cost_so_far.map Prod.snd).sum + nc := by
          rw [hres]
          exact sum_setKey_mem st.cost_so_far next nc old base.nodup hlook
        have hfront : (relaxStep goal current st next).frontier.length =
            st.frontier.length + 1 := by
          rw [hres]
          simp
        unfold potential
        rw [hfront, hlen]
        set D := (gridCells W H + 1 - st.cost_so_far.length) *
          (7 * (gridCells W H + 1) + 2) with hD
        omega
    · have hres := relaxStep_keep goal current st next gcur old hgcur hlook hlt
      rw [hres]
      exact ⟨base, fun e he => he, (lookup_isSome_iff _ _).1 ⟨old, hlook⟩,
        fun c hc => hc, le_refl _⟩



/-- Folding relaxations over the pending neighbour list keeps the core
invariant, completes the expansion bookkeeping, and does not increase the
potential. -/
theorem expand_fold (W H : ℤ) (obstacles : List Cell)
    (start goal current : Cell) :
    ∀ (ns : List Cell) (st : AState),
      (∀ n ∈ ns, n ∈ get_neighbors W H obstacles current) →
      AInvCore W H obstacles start st →
      current ∈ mapKeys st.cost_so_far →
      ExpandOk W H obstacles current ns st →
      AInvCore W H obstacles start
        (ns.foldl (relaxStep goal current) st) ∧
      ExpandOk W H obstacles current []
        (ns.foldl (relaxStep goal current) st) ∧
      potential W H (ns.foldl (relaxStep goal current) st) ≤
        potential W H st := by
  intro ns
  induction ns with
  | nil =>
    intro st _ base hcur hok
    refine ⟨base, ?_, le_refl _⟩
    intro c hc
    rcases hok c hc with h | h | ⟨rfl, h⟩
    · exact Or.inl h
    · exact Or.inr (Or.inl h)
    · refine Or.inr (Or.inr ⟨rfl, ?_⟩)
      intro nb hnb
      rcases h nb hnb with habs | hh
      · cases habs
      · exact Or.inr hh
  | cons n ns ih =>
    intro st hns base hcur hok
    have hn : n ∈ get_neighbors W H obstacles current :=
      hns n (List.mem_cons_self n ns)
    obtain ⟨base', hfr, hnmem, hsub, hpot⟩ :=
      relaxStep_core W H obstacles start goal current st n hn hcur base
    have hok' : ExpandOk W H obstacles current ns
        (relaxStep goal current st n) := by
      intro c hc
      -- either c is an old key or c = n freshly inserted
      by_cases hcold : c ∈ mapKeys st.cost_so_far
      · rcases hok c hcold with h | h | ⟨rfl, h⟩
        · obtain ⟨e, he, hec⟩ := h
          exact Or.inl ⟨e, hfr e he, hec⟩
        · refine Or.inr (Or.inl ?_)
          intro nb hnb
          exact hsub nb (h nb hnb)
        · refine Or.inr (Or.inr ⟨rfl, ?_⟩)
          intro nb hnb
          rcases h nb hnb with hpend | hkey
          · rcases List.mem_cons.1 hpend with rfl | hpend
            · exact Or.inr hnmem
            · exact Or.inl hpend
          · exact Or.inr (hsub nb hkey)
      · -- a fresh key can only be n, freshly pushed with its entry
        obtain ⟨g, hg⟩ := (lookup_isSome_iff _ _).2 hcur
        rcases hlook : st.cost_so_far.lookup n with _ | old
        · have hres := relaxStep_new goal current st n g hg hlook
          have hkeysn := (mapKeys_setKey st.cost_so_far n
            (g + step_cost_u current n)).2 ((lookup_eq_none_iff _ _).1 hlook)
          have hcn : c = n := by
            rw [hres] at hc
            simp only at hc
            rw [hkeysn, List.mem_append, List.mem_singleton] at hc
            tauto
          subst hcn
          refine Or.inl ⟨((g + step_cost_u current c, hrad c goal), c), ?_, rfl⟩
          rw [hres]
          simp
        · exfalso
          by_cases hlt : g + step_cost_u current n < old
          · have hres := relaxStep_improve goal current st n g old hg hlook hlt
            rw [hres] at hc
            simp only at hc
            rw [(mapKeys_setKey st.cost_so_far n _).1
              ((lookup_isSome_iff _ _).1 ⟨old, hlook⟩)] at hc
            exact hcold hc
          · have hres := relaxStep_keep goal current st n g old hg hlook hlt
            rw [hres] at hc
            exact hcold hc
    have := ih (relaxStep goal current st n)
      (fun m hm => hns m (List.mem_cons_of_mem _ hm)) base'
      (hsub current hcur) hok'
    rw [List.foldl_cons]
    exact ⟨this.1, this.2.1, le_trans this.2.2 hpot⟩



/-- One loop iteration — pop a non-goal entry, expand it — preserves the
invariant and strictly decreases the potential. -/
theorem astar_step (W H : ℤ) (obstacles : List Cell) (start goal : Cell)
    (st : AState) (e : Entry) (rest : List Entry)
    (inv : AInv W H obstacles start st)
    (hpop : popMin st.frontier = some (e, rest)) :
    AInv W H obstacles start
      (expand W H obstacles goal e.2 { st with frontier := rest }) ∧
    potential W H (expand W H obstacles goal e.2 { st with frontier := rest })
      < potential W H st := by
  obtain ⟨hmem, hrest⟩ := popMin_spec _ _ _ hpop
  have hcur : e.2 ∈ mapKeys st.cost_so_far := inv.frontier_keys e hmem
  have base' : AInvCore W H obstacles start { st with frontier := rest } := by
    refine ⟨inv.nodup, inv.same, inv.start_cost, inv.start_parent, inv.grid,
      inv.reach, ?_, inv.parent_edge, inv.parent_none, inv.cost_bound⟩
    intro e' he'
    refine inv.frontier_keys e' ?_
    rw [hrest] at he'
    exact List.mem_of_mem_erase he'
  have hok : ExpandOk W H obstacles e.2
      (get_neighbors W H obstacles e.2) { st with frontier := rest } := by
    intro c hc
    rcases inv.expanded c hc with ⟨e', he', hec⟩ | h
    · rcases popMin_mem_split _ _ _ hpop e' he' with rfl | hrest'
      · subst hec
        exact Or.inr (Or.inr ⟨rfl, fun nb hnb => Or.inl hnb⟩)
      · exact Or.inl ⟨e', hrest', hec⟩
    · exact Or.inr (Or.inl h)
  obtain ⟨hcore, hexp, hpot⟩ := expand_fold W H obstacles start goal e.2
    (get_neighbors W H obstacles e.2) { st with frontier := rest }
    (fun n hn => hn) base' hcur hok
  constructor
  · refine ⟨hcore, ?_⟩
    intro c hc
    rcases hexp c hc with h | h | ⟨rfl, h⟩
    · exact Or.inl h
    · exact Or.inr h
    · refine Or.inr ?_
      intro nb hnb
      rcases h nb hnb with habs | hh
      · cases habs
      · exact hh
  · have hlen := popMin_length _ _ _ hpop
    have hpot' : potential W H { st with frontier := rest } + 1 =
        potential W H st := by
      unfold potential
      simp only
      omega
    unfold expand
    omega

/-- Given enough fuel, the loop ends in an invariant state whose frontier
is empty or whose minimum entry is the goal. -/
theorem astar_loop_spec (W H : ℤ) (obstacles : List Cell)
    (start goal : Cell) :
    ∀ (fuel : ℕ) (st : AState), AInv W H obstacles start st →
      potential W H st < fuel →
      AInv W H obstacles start (astar_loop W H obstacles goal fuel st) ∧
      ((astar_loop W H obstacles goal fuel st).frontier = [] ∨
        ∃ e rest,
          popMin (astar_loop W H obstacles goal fuel st).frontier =
            some (e, rest) ∧ e.2 = goal) := by
  intro fuel
  induction fuel with
  | zero => intro st _ habs; omega
  | succ fuel ih =>
    intro st inv hfuel
    rw [astar_loop]
    rcases hpop : popMin st.frontier with _ | ⟨e, rest⟩
    · simp only [hpop]
      exact ⟨inv, Or.inl ((popMin_eq_none_iff _).1 hpop)⟩
    · simp only [hpop]
      by_cases hgoal : e.2 = goal
      · rw [if_pos hgoal]
        exact ⟨inv, Or.inr ⟨e, rest, hpop, hgoal⟩⟩
      · rw [if_neg hgoal]
        obtain ⟨inv', hdec⟩ :=
          astar_step W H obstacles start goal st e rest inv hpop
        exact ih _ inv' (by omega)

/-- When the frontier has emptied, the key set is closed under search
edges, so it contains everything reachable from the start. -/
theorem frontier_empty_closure (W H : ℤ) (obstacles : List Cell)
    (start : Cell) (st : AState) (inv : AInv W H obstacles start st)
    (hfr : st.frontier = []) :
    ∀ c, Reach W H obstacles start c → c ∈ mapKeys st.cost_so_far := by
  intro c hreach
  induction hreach with
  | refl => exact (lookup_isSome_iff _ _).1 ⟨0, inv.start_cost⟩
  | tail _ hstep ih =>
    rcases inv.expanded _ ih with ⟨e, he, _⟩ | h
    · rw [hfr] at he
      cases he
    · exact h _ hstep

/-- The initial state satisfies the invariant within the fuel budget. -/
theorem astar_init (W H : ℤ) (obstacles : List Cell) (start : Cell) :
    AInv W H obstacles start
      ⟨[((0, 0), start)], [(start, none)], [(start, 0)]⟩ ∧
    potential W H ⟨[((0, 0), start)], [(start, none)], [(start, 0)]⟩ <
      fuelBound W H := by
  constructor
  · refine ⟨⟨?_, rfl, ?_, ?_, ?_, ?_, ?_, ?_, ?_, ?_⟩, ?_⟩
    · simp [mapKeys]
    · rw [lookup_cons, if_pos rfl]
    · rw [lookup_cons, if_pos rfl]
    · intro c hc
      simp only [mapKeys, List.map_cons, List.map_nil,
        List.mem_singleton] at hc
      exact Or.inl hc
    · intro c hc
      simp only [mapKeys, List.map_cons, List.map_nil,
        List.mem_singleton] at hc
      subst hc
      exact Relation.ReflTransGen.refl
    · intro e he
      simp only [List.mem_singleton] at he
      subst he
      simp [mapKeys]
    · intro c pc hcp
      rw [lookup_cons] at hcp
      split at hcp
      · rw [Option.some_inj] at hcp
        cases hcp
      · cases hcp
    · intro c hcp
      rw [lookup_cons] at hcp
      split at hcp
      · rename_i h
        exact h
      · cases hcp
    · intro c g hg
      rw [lookup_cons] at hg
      split at hg
      · rw [Option.some_inj] at hg
        omega
      · cases hg
    · intro c hc
      simp only [mapKeys, List.map_cons, List.map_nil,
        List.mem_singleton] at hc
      subst hc
      exact Or.inl ⟨((0, 0), c), List.mem_singleton.2 rfl, rfl⟩
  · unfold potential fuelBound
    simp only [List.length_singleton, List.map_cons, List.map_nil,
      List.sum_cons, List.sum_nil, Nat.add_sub_cancel]
    have hmul : (gridCells W H + 1) * (7 * (gridCells W H + 1) + 2) =
        gridCells W H * (7 * (gridCells W H + 1) + 2) +
          (7 * (gridCells W H + 1) + 2) := by
      ring
    omega



/-- Reconstruction with an accumulator appends the accumulator. -/
theorem reconstruct_append (came_from : ParentMap) :
    ∀ (fuel : ℕ) (c : Cell) (acc : List Cell),
      reconstruct came_from fuel c acc =
        reconstruct came_from fuel c [] ++ acc := by
  intro fuel
  induction fuel with
  | zero => intro c acc; rfl
  | succ fuel ih =>
    intro c acc
    rw [reconstruct, reconstruct]
    rcases h : came_from.lookup c with _ | (_ | par)
    · rfl
    · rfl
    · show reconstruct came_from fuel par (c :: acc) =
        reconstruct came_from fuel par (c :: []) ++ acc
      rw [ih par (c :: acc), ih par (c :: [])]
      rw [List.append_assoc]
      rfl

/-- Under the invariant, following parents from a keyed cell yields a
chain of search edges from the start to that cell. -/
theorem reconstruct_spec (W H : ℤ) (obstacles : List Cell) (start : Cell)
    (st : AState) (base : AInvCore W H obstacles start st) :
    ∀ (fuel : ℕ) (gc : ℕ) (c : Cell),
      st.cost_so_far.lookup c = some gc → gc < 5 * fuel →
      (reconstruct st.came_from fuel c []).head? = some start ∧
      (reconstruct st.came_from fuel c []).getLast? = some c ∧
      ValidSeq W H obstacles (reconstruct st.came_from fuel c []) := by
  intro fuel
  induction fuel with
  | zero => intro gc c _ habs; omega
  | succ fuel ih =>
    intro gc c hlook hfuel
    have hc : c ∈ mapKeys st.came_from := by
      rw [base.same]
      exact (lookup_isSome_iff _ _).1 ⟨gc, hlook⟩
    obtain ⟨v, hv⟩ := (lookup_isSome_iff _ _).2 hc
    rcases v with _ | par
    · have hstart : c = start := base.parent_none c hv
      have hred : reconstruct st.came_from (Nat.succ fuel) c [] = [c] := by
        rw [reconstruct, hv]
      rw [hred]
      subst hstart
      exact ⟨rfl, rfl, List.chain'_singleton c⟩
    · obtain ⟨hadj, gc₂, gp, hgc₂, hgp, hle⟩ := base.parent_edge c par hv
      rw [hlook] at hgc₂
      rw [Option.some_inj] at hgc₂
      subst hgc₂
      obtain ⟨hhead, hlast, hchain⟩ := ih gp par hgp (by omega)
      have hred : reconstruct st.came_from (Nat.succ fuel) c [] =
          reconstruct st.came_from fuel par [] ++ [c] := by
        rw [reconstruct, hv]
        show reconstruct st.came_from fuel par (c :: []) =
          reconstruct st.came_from fuel par [] ++ [c]
        rw [reconstruct_append st.came_from fuel par (c :: [])]
      rw [hred]
      rcases hL : reconstruct st.came_from fuel par [] with _ | ⟨a, L⟩
      · rw [hL] at hhead
        cases hhead
      · rw [hL] at hhead hlast hchain
        refine ⟨hhead, ?_, ?_⟩
        · rw [List.getLast?_concat]
        · rw [ValidSeq] at hchain ⊢
          rw [List.chain'_append]
          refine ⟨hchain, List.chain'_singleton c, ?_⟩
          intro x hx y hy
          rw [hlast, Option.mem_def, Option.some_inj] at hx
          simp only [List.head?_cons, Option.mem_def, Option.some_inj] at hy
          subst hx
          subst hy
          exact hadj



/-- The rational path cost is the integer-fifths cost scaled by `1/5`. -/
theorem pathCost_eq_costVal : ∀ l : List Cell, pathCost l = costVal (pathCostU l) := by
  intro l
  induction l with
  | nil => simp [pathCost, pathCostU, costVal]
  | cons a rest ih =>
    rcases rest with _ | ⟨b, rest'⟩
    · simp [pathCost, pathCostU, costVal]
    · rw [pathCost, pathCostU, ih]
      unfold costVal
      push_cast
      ring

/-- Every cell of a reconstructed sequence from a keyed cell is keyed or
came from the accumulator. -/
theorem reconstruct_mem (W H : ℤ) (obstacles : List Cell) (start : Cell)
    (st : AState) (base : AInvCore W H obstacles start st) :
    ∀ (fuel : ℕ) (c : Cell) (acc : List Cell),
      c ∈ mapKeys st.cost_so_far →
      ∀ x ∈ reconstruct st.came_from fuel c acc,
        x ∈ mapKeys st.cost_so_far ∨ x ∈ acc := by
  intro fuel
  induction fuel with
  | zero =>
    intro c acc hc x hx
    rw [reconstruct, List.mem_cons] at hx
    rcases hx with rfl | hx
    · exact Or.inl hc
    · exact Or.inr hx
  | succ fuel ih =>
    intro c acc hc x hx
    rcases hv : st.came_from.lookup c with _ | (_ | par)
    · have hred : reconstruct st.came_from (Nat.succ fuel) c acc = c :: acc := by
        rw [reconstruct, hv]
      rw [hred, List.mem_cons] at hx
      rcases hx with rfl | hx
      · exact Or.inl hc
      · exact Or.inr hx
    · have hred : reconstruct st.came_from (Nat.succ fuel) c acc = c :: acc := by
        rw [reconstruct, hv]
      rw [hred, List.mem_cons] at hx
      rcases hx with rfl | hx
      · exact Or.inl hc
      · exact Or.inr hx
    · obtain ⟨_, gc₂, gp, _, hgp, _⟩ := base.parent_edge c par hv
      have hpar : par ∈ mapKeys st.cost_so_far :=
        (lookup_isSome_iff _ _).1 ⟨gp, hgp⟩
      have hred : reconstruct st.came_from (Nat.succ fuel) c acc =
          reconstruct st.came_from fuel par (c :: acc) := by
        rw [reconstruct, hv]
      rw [hred] at hx
      rcases ih par (c :: acc) hpar x hx with h | h
      · exact Or.inl h
      · rw [List.mem_cons] at h
        rcases h with rfl | h
        · exact Or.inl hc
        · exact Or.inr h

/-- C2 (amended): `find_path` returns `None` exactly when the goal is not
reachable from the start along in-bounds unblocked 8-neighbour steps;
when it returns a sequence, that sequence begins at the start, ends at
the goal, each consecutive pair is an in-bounds unblocked 8-neighbour
step, and every cell other than the start is in bounds and unblocked.
(The original claim's cost-optimality clause is false and is dropped;
see the counterexample.) -/
theorem find_path_spec (W H : ℤ) (obstacles : List Cell)
    (start goal : Cell) :
    (find_path W H obstacles start goal = none ↔
      ¬ Reach W H obstacles start goal) ∧
    ∀ path, find_path W H obstacles start goal = some path →
      path.head? = some start ∧ path.getLast? = some goal ∧
      ValidSeq W H obstacles path ∧
      ∀ c ∈ path, c = start ∨
        (0 ≤ c.1 ∧ c.1 < W ∧ 0 ≤ c.2 ∧ c.2 < H ∧ c ∉ obstacles) := by
  obtain ⟨inv0, hpot0⟩ := astar_init W H obstacles start
  obtain ⟨invF, hterm⟩ := astar_loop_spec W H obstacles start goal
    (fuelBound W H) ⟨[((0, 0), start)], [(start, none)], [(start, 0)]⟩
    inv0 hpot0
  have hfp : find_path W H obstacles start goal =
      match (astar_loop W H obstacles goal (fuelBound W H)
          ⟨[((0, 0), start)], [(start, none)], [(start, 0)]⟩).came_from.lookup
          goal with
      | none => none
      | some _ =>
        some (reconstruct
          (astar_loop W H obstacles goal (fuelBound W H)
            ⟨[((0, 0), start)], [(start, none)], [(start, 0)]⟩).came_from
          (7 * (astar_loop W H obstacles goal (fuelBound W H)
            ⟨[((0, 0), start)], [(start, none)], [(start, 0)]⟩).came_from.length
            + 7)
          goal []) := rfl
  set A := astar_loop W H obstacles goal (fuelBound W H)
    ⟨[((0, 0), start)], [(start, none)], [(start, 0)]⟩ with hA
  rcases hv : A.came_from.lookup goal with _ | v
  · rw [hfp, hv]
    constructor
    · simp only [true_iff]
      intro hreach
      have hgoal : goal ∉ mapKeys A.came_from := (lookup_eq_none_iff _ _).1 hv
      rw [invF.same] at hgoal
      rcases hterm with hempty | ⟨e, rest, hpop, he⟩
      · exact hgoal
          (frontier_empty_closure W H obstacles start A invF hempty goal hreach)
      · obtain ⟨hmem, _⟩ := popMin_spec _ _ _ hpop
        exact hgoal (he ▸ invF.frontier_keys e hmem)
    · intro path hpath
      cases hpath
  · rw [hfp, hv]
    have hgoalk : goal ∈ mapKeys A.cost_so_far := by
      rw [← invF.same]
      exact (lookup_isSome_iff _ _).1 ⟨v, hv⟩
    constructor
    · constructor
      · intro habs
        cases habs
      · intro habs
        exact absurd (invF.reach goal hgoalk) habs
    · intro path hpath
      rw [Option.some_inj] at hpath
      obtain ⟨gc, hgc⟩ := (lookup_isSome_iff _ _).2 hgoalk
      have hbound : gc ≤ 7 * (mapKeys A.cost_so_far).length :=
        invF.cost_bound goal gc hgc
      have hlen : (mapKeys A.cost_so_far).length = A.came_from.length := by
        rw [← invF.same, mapKeys, List.length_map]
      have hfuel : gc < 5 * (7 * A.came_from.length + 7) := by
        rw [hlen] at hbound
        omega
      obtain ⟨hhead, hlast, hchain⟩ := reconstruct_spec W H obstacles start A
        invF.toAInvCore (7 * A.came_from.length + 7) gc goal hgc hfuel
      subst hpath
      refine ⟨hhead, hlast, hchain, ?_⟩
      intro c hc
      rcases reconstruct_mem W H obstacles start A invF.toAInvCore
        (7 * A.came_from.length + 7) goal [] hgoalk c hc with h | h
      · exact invF.grid c h
      · cases h

/-- The amended C2 at a concrete grid: a 2×1 empty grid yields the
two-cell path, and the structural guarantees hold for it. -/
theorem find_path_spec_witness :
    find_path 2 1 [] (0, 0) (1, 0) = some [(0, 0), (1, 0)] ∧
    (([(0, 0), (1, 0)] : List Cell).head? = some (0, 0) ∧
      ([(0, 0), (1, 0)] : List Cell).getLast? = some (1, 0) ∧
      ValidSeq 2 1 [] [(0, 0), (1, 0)] ∧
      ∀ c ∈ ([(0, 0), (1, 0)] : List Cell), c = (0, 0) ∨
        (0 ≤ c.1 ∧ c.1 < 2 ∧ 0 ≤ c.2 ∧ c.2 < 1 ∧ c ∉ ([] : List Cell))) :=
  ⟨by decide, (find_path_spec 2 1 [] (0, 0) (1, 0)).2 [(0, 0), (1, 0)]
    (by decide)⟩



set_option maxRecDepth 100000 in
set_option maxHeartbeats 4000000 in
/-- C2 counterexample: on a 19×28 grid with two corridors the code
returns a path of cost 37.2 while a valid path of cost 37.0 exists (the
Euclidean heuristic is inadmissible for the 1.4 diagonal step cost), so
the returned cost is not minimal; and with a blocked start cell on a 1×1
grid the returned path visits a blocked cell. -/
theorem astar_suboptimal_counterexample :
    (find_path 19 28 bigObstacles (15, 27) (0, 0) = some bigReturned ∧
      bigAlt.head? = some (15, 27) ∧
      bigAlt.getLast? = some (0, 0) ∧
      ValidSeq 19 28 bigObstacles bigAlt ∧
      pathCost bigAlt = 37 ∧
      pathCost bigReturned = 186 / 5 ∧
      pathCost bigAlt < pathCost bigReturned) ∧
    find_path 1 1 [(0, 0)] (0, 0) (0, 0) = some [(0, 0)] := by
  have h1 : pathCostU bigAlt = 185 := by decide
  have h2 : pathCostU bigReturned = 186 := by decide
  have e1 : pathCost bigAlt = 37 := by
    rw [pathCost_eq_costVal, h1]
    norm_num [costVal]
  have e2 : pathCost bigReturned = 186 / 5 := by
    rw [pathCost_eq_costVal, h2]
    norm_num [costVal]
  have hvs : ValidSeq 19 28 bigObstacles bigAlt := by
    rw [ValidSeq, List.chain'_iff_get]
    simp only [AdjStep]
    decide
  refine ⟨⟨?_, by decide, by decide, hvs, e1, e2, ?_⟩, by decide⟩
  · decide
  · rw [e1, e2]
    norm_num

end Event
